import Mathlib

/-
Verification of the incremental PBKDF2 key-derivation engine (mxk/go-pbkdf2).

Shallow embedding conventions:
* Bytes are `Nat` values; byte slices are `List Nat`.
* The keyed PRF (an HMAC instance bound to the password in the source) is an
  abstract parameter `prf : List Nat → List Nat` together with its digest size
  `hLen` (the source's `prf.Size()`).  Theorems that need it assume
  `∀ x, (prf x).length = hLen`.
* Go panics are modelled by `Except PBKDF2 _`: `.error st` is a panic raised
  while the receiver's state is `st` (all panics in the source occur before any
  mutation, so `st` is the input state).
* The time-based control loop `derive` reads the clock only through
  `timer.elapsed`; the embedding abstracts the sequence of elapsed checks into
  an oracle `el : Nat → Bool` (the value of check number `k`), plus a fuel
  bound: exhausting the fuel behaves exactly like an elapsed check returning
  true, so every finite execution of the source loop is an instance of the
  model.  The floating-point duration adjustment in the source only changes
  which oracle is realised, never the loop structure.
-/

namespace Pbkdf2

/-- XOR of two byte strings, pointwise (the source's `t[j] ^= v` loop over
`j, v := range u`, which stops at the shorter list). -/
def xorBytes (a b : List Nat) : List Nat := List.zipWith (fun x y => x ^^^ y) a b

/-- Big-endian 32-bit encoding of a block index, as in the source's
`[]byte{byte(i >> 24), byte(i >> 16), byte(i >> 8), byte(i)}`. -/
def be32 (i : Nat) : List Nat :=
  [i / 2 ^ 24 % 256, i / 2 ^ 16 % 256, i / 2 ^ 8 % 256, i % 256]

/-- Fuelled worker for `chunks` (structural recursion on the fuel, so that the
kernel can evaluate it; the fuel is always the list length). -/
def chunksF (h : Nat) : Nat → List Nat → List (List Nat)
  | 0, _ => []
  | _ + 1, [] => []
  | fuel + 1, x :: xs => (x :: List.take h xs) :: chunksF h fuel (List.drop h xs)

/-- Split a byte string into chunks of size `h + 1` (the last chunk may be
short; in the engine the length is always a multiple of the chunk size). -/
def chunks (h : Nat) (l : List Nat) : List (List Nat) := chunksF h l.length l

/-- The digest-sized blocks of a buffer (`for j := 0; j < len(u); j += hLen`). -/
def blocksOf (hLen : Nat) (l : List Nat) : List (List Nat) := chunks (hLen - 1) l

/-- One in-place update of the `u` buffer: every digest-sized block is replaced
by its PRF image (`prf.Reset(); prf.Write(u[j:j+hLen]); prf.Sum(u[:j])`). -/
def roundU (prf : List Nat → List Nat) (hLen : Nat) (u : List Nat) : List Nat :=
  ((blocksOf hLen u).map prf).flatten

/-- One iteration of the source's inner loop: update `u` blockwise by the PRF,
then XOR the new `u` into `t`. -/
def step (prf : List Nat → List Nat) (hLen : Nat) (s : List Nat × List Nat) :
    List Nat × List Nat :=
  (xorBytes s.1 (roundU prf hLen s.2), roundU prf hLen s.2)

/-- `k`-fold application of `step` (the source's `for i := 0; i < c; i++`). -/
def steps (prf : List Nat → List Nat) (hLen : Nat) :
    Nat → List Nat × List Nat → List Nat × List Nat
  | 0, s => s
  | k + 1, s => step prf hLen (steps prf hLen k s)

/-- The initial `t` buffer: concatenation of `prf(salt || BigEndian32(i))` for
block indices `i = 1 .. n` (the source's first-call loop). -/
def initT (prf : List Nat → List Nat) (salt : List Nat) (n : Nat) : List Nat :=
  ((List.range n).map (fun k => prf (salt ++ be32 (k + 1)))).flatten

/-- The `PBKDF2` struct of the source, minus the embedded PRF (which is a
parameter of every operation here). -/
structure PBKDF2 where
  dkLen : Nat
  salt : List Nat
  t : List Nat
  u : List Nat
  iters : Nat
  deriving Repr, DecidableEq

/-- `New` (the password and hash factory are absorbed into the `prf`
parameter of the operations). -/
def New (salt : List Nat) (dkLen : Nat) : PBKDF2 :=
  { dkLen := dkLen, salt := salt, t := [], u := [], iters := 0 }

/-- `PBKDF2.Next`: run the derivation for `c` additional iterations and return
a copy of the new key together with the updated state.  `c <= 0` panics with
the state untouched.  On the first call (`iters == 0`) the block buffers are
initialised, which consumes one of the requested iterations. -/
def PBKDF2.Next (prf : List Nat → List Nat) (hLen : Nat) (st : PBKDF2) (c : Int) :
    Except PBKDF2 (List Nat × PBKDF2) :=
  if c ≤ 0 then .error st
  else
    let init : PBKDF2 × Int :=
      if st.iters = 0 then
        let n := (st.dkLen + hLen - 1) / hLen
        let t0 := initT prf st.salt n
        ({ st with t := t0, u := t0, iters := 1 }, c - 1)
      else (st, c)
    let p := steps prf hLen init.2.toNat (init.1.t, init.1.u)
    .ok (List.take init.1.dkLen p.1,
      { init.1 with t := p.1, u := p.2, iters := init.1.iters + init.2.toNat })

/-- The one-shot `Key` helper: `New` followed by a single `Next`. -/
def Key (prf : List Nat → List Nat) (hLen : Nat) (salt : List Nat) (iter : Int)
    (dkLen : Nat) : Except PBKDF2 (List Nat) :=
  (PBKDF2.Next prf hLen (New salt dkLen) iter).map Prod.fst

/-- `PBKDF2.Reset`: clear the buffers and the iteration count; optionally
replace the salt (when present) and the key length (when positive). -/
def PBKDF2.Reset (st : PBKDF2) (salt : Option (List Nat)) (dkLen : Nat) : PBKDF2 :=
  { st with
    dkLen := if 0 < dkLen then dkLen else st.dkLen
    salt := match salt with | some s => s | none => st.salt
    t := []
    u := []
    iters := 0 }

/-- `PBKDF2.Salt` accessor (returns a copy in the source; copies are identity
on immutable lists). -/
def PBKDF2.Salt (st : PBKDF2) : List Nat := st.salt

/-- `PBKDF2.Size` accessor. -/
def PBKDF2.Size (st : PBKDF2) : Nat := st.dkLen

/-- `PBKDF2.Iters` accessor. -/
def PBKDF2.Iters (st : PBKDF2) : Nat := st.iters

/-- Go `error` values that flow through the control loop: the `KeyFound`
sentinel, `ErrTimeout`, and any other error a predicate may return. -/
inductive Err where
  | keyFound
  | errTimeout
  | custom (code : Nat)
  deriving Repr, DecidableEq

/-- Result of one run of the `derive` control loop: the final key, the error
the predicate returned (if any), the final state, and — as instrumentation for
the temporal claims — the trace of predicate invocations, each recorded as
(iteration count at the call, key passed to the predicate). -/
structure DeriveOut where
  dk : List Nat
  err : Option Err
  st : PBKDF2
  trace : List (Nat × List Nat)
  deriving Repr, DecidableEq

/-- The body of the source's `derive` loop.  Each round invokes the predicate
`f` on the current key (recording the invocation in the trace), stops when `f`
returns an error or the elapsed check fires (`el k` is the `k`-th call to
`t.elapsed(d)`; running out of fuel behaves like an elapsed check returning
true), and otherwise advances the state by `Next(iters >> p)`. -/
def deriveLoop (prf : List Nat → List Nat) (hLen p : Nat)
    (f : List Nat → Option Err) (el : Nat → Bool) :
    Nat → PBKDF2 → List Nat → Nat → Except PBKDF2 DeriveOut
  | 0, st, dk, _ =>
    match f dk with
    | some e => .ok { dk := dk, err := some e, st := st, trace := [(st.iters, dk)] }
    | none => .ok { dk := dk, err := none, st := st, trace := [(st.iters, dk)] }
  | fuel + 1, st, dk, k =>
    match f dk with
    | some e => .ok { dk := dk, err := some e, st := st, trace := [(st.iters, dk)] }
    | none =>
      if el k then
        .ok { dk := dk, err := none, st := st, trace := [(st.iters, dk)] }
      else
        match PBKDF2.Next prf hLen st (Int.ofNat (st.iters >>> p)) with
        | .error s => .error s
        | .ok (dk2, st2) =>
          (deriveLoop prf hLen p f el fuel st2 dk2 (k + 1)).map
            (fun o => { o with trace := (st.iters, dk) :: o.trace })

/-- The source's `derive` method: validate the precision, reset the state,
perform the initial `Next(1024)`, and run the loop. -/
def deriveGo (prf : List Nat → List Nat) (hLen p : Nat)
    (f : List Nat → Option Err) (el : Nat → Bool) (fuel : Nat) (st : PBKDF2) :
    Except PBKDF2 DeriveOut :=
  if 10 < p then .error st
  else
    match PBKDF2.Next prf hLen (st.Reset none 0) 1024 with
    | .error s => .error s
    | .ok (dk, st2) => deriveLoop prf hLen p f el fuel st2 dk 0

/-- The package's `precision` constant. -/
def precision : Nat := 4

/-- `PBKDF2.Derive`: run the engine with the default precision and a predicate
that always continues, returning only the key. -/
def Derive (prf : List Nat → List Nat) (hLen : Nat) (el : Nat → Bool)
    (fuel : Nat) (st : PBKDF2) : Except PBKDF2 (List Nat) :=
  (deriveGo prf hLen precision (fun _ => none) el fuel st).map (fun o => o.dk)

/-- `PBKDF2.Search`: run the engine with the default precision and the caller's
predicate, then map the outcome: `KeyFound` becomes (key, no error); any other
outcome drops the key and reports either the predicate's error or `ErrTimeout`.
The final state is carried along (the source mutates the receiver). -/
def Search (prf : List Nat → List Nat) (hLen : Nat) (f : List Nat → Option Err)
    (el : Nat → Bool) (fuel : Nat) (st : PBKDF2) :
    Except PBKDF2 (Option (List Nat) × Option Err × PBKDF2) :=
  match deriveGo prf hLen precision f el fuel st with
  | .error s => .error s
  | .ok o =>
    match o.err with
    | some .keyFound => .ok (some o.dk, none, o.st)
    | some e => .ok (none, some e, o.st)
    | none => .ok (none, some .errTimeout, o.st)

/-- Wrap a mathematical integer into the signed 64-bit range (two's
complement), for the one shift in `timer.elapsed` that can overflow. -/
def wrap64 (x : Int) : Int := (x + 2 ^ 63) % 2 ^ 64 - 2 ^ 63

/-- The source's `d << 1` on a 64-bit duration. -/
def shl1 (d : Int) : Int := wrap64 (d * 2)

/-- `timer.elapsed`, as a function of the requested duration `d`, the measured
wall-clock delta `wall = time.Since(t.wall)` and the measured CPU-time delta
`cpu = utime() - t.user` (both already-computed 64-bit differences). -/
def elapsedFn (d wall cpu : Int) : Bool :=
  let emin := decide (d ≤ wall)
  if emin && decide (wall < shl1 d) then decide (d ≤ cpu) else emin

/-! ### Reference model, written from the specification (RFC 2898)

`U`, `F` and `pbkdf2Spec` follow the spec's description of PBKDF2
(`U_1 = PRF(S || INT(i))`, `U_{j+1} = PRF(U_j)`,
`F(P, S, c, i) = U_1 XOR U_2 XOR ... XOR U_c`,
`DK = first dkLen bytes of T_1 || ... || T_n`, `n = ceil(dkLen / hLen)`).
They are the comparison point for the refinement claims, independent of the
engine's buffers. -/

/-- `U prf salt i j` is the RFC 2898 value `U_{j+1}` for block index `i`. -/
def U (prf : List Nat → List Nat) (salt : List Nat) (i : Nat) : Nat → List Nat
  | 0 => prf (salt ++ be32 i)
  | j + 1 => prf (U prf salt i j)

/-- `F prf salt c i` is the RFC 2898 block value
`T_i = U_1 XOR ... XOR U_c` (empty for `c = 0`, which RFC 2898 excludes). -/
def F (prf : List Nat → List Nat) (salt : List Nat) (c i : Nat) : List Nat :=
  match c with
  | 0 => []
  | k + 1 =>
    (List.range k).foldl (fun a j => xorBytes a (U prf salt i (j + 1)))
      (U prf salt i 0)

/-- The RFC 2898 derived key `PBKDF2(P, S, c, dkLen)` (the password is bound
inside `prf`). -/
def pbkdf2Spec (prf : List Nat → List Nat) (hLen : Nat) (salt : List Nat)
    (c dkLen : Nat) : List Nat :=
  List.take dkLen
    (((List.range ((dkLen + hLen - 1) / hLen)).map
        (fun k => F prf salt c (k + 1))).flatten)

/-! ### Per-block view of the engine's inner loop -/

/-- `j`-fold application of the PRF to one block (`U_{j+1}` given `U_1`). -/
def UitB (prf : List Nat → List Nat) (b : List Nat) : Nat → List Nat
  | 0 => b
  | k + 1 => prf (UitB prf b k)

/-- Running XOR accumulator for one block: `TaccB b k = U_1 XOR ... XOR U_{k+1}`
when `b = U_1`. -/
def TaccB (prf : List Nat → List Nat) (b : List Nat) : Nat → List Nat
  | 0 => b
  | k + 1 => xorBytes (TaccB prf b k) (UitB prf b (k + 1))

/-! ### The control loop's iteration-count schedule -/

/-- The schedule of iteration counts at which the control loop invokes the
predicate, started from `i0`: each batch adds `current >> p`. -/
def sched (p i0 : Nat) : Nat → Nat
  | 0 => i0
  | k + 1 => sched p i0 k + (sched p i0 k >>> p)

/-- The claim's fixed predicate-invocation schedule:
`i_0 = 1024`, `i_{k+1} = i_k + floor(i_k / 2^p)`. -/
def specSeq (p : Nat) : Nat → Nat
  | 0 => 1024
  | k + 1 => specSeq p k + specSeq p k / 2 ^ p

/-- Claim C4's reading of `timer.elapsed` at one query point: below `d` of
wall time never elapsed; at or beyond `2*d` of wall time always elapsed; in
between, elapsed exactly when the CPU-time delta reached `d`. -/
def claimElapsed (d wall cpu : Int) : Prop :=
  (wall < d → elapsedFn d wall cpu = false)
  ∧ (2 * d ≤ wall → elapsedFn d wall cpu = true)
  ∧ (d ≤ wall → wall < 2 * d → (elapsedFn d wall cpu = true ↔ d ≤ cpu))

/-! ### Concrete instances used by the witnesses -/

/-- A tiny deterministic keyed PRF with digest size 1, used to instantiate
theorems on concrete inputs. -/
def prfSum (l : List Nat) : List Nat := [(l.foldl (fun a x => a + x) 7) % 256]

/-- A constant digest-size-1 PRF, used where long runs must stay cheap. -/
def prfZero (_ : List Nat) : List Nat := [0]

/-! ### SHA-1 and HMAC-SHA1

A byte-level implementation of SHA-1 (FIPS 180) and the HMAC construction,
used to instantiate the abstract PRF with the real `hmac.New(sha1.New, pass)`
of the source and check the published RFC 6070 PBKDF2 vectors concretely. -/

/-- Rotate a 32-bit word left by `s` bits. -/
def rotl (s w : Nat) : Nat := ((w <<< s) % 2 ^ 32) ||| (w >>> (32 - s))

/-- Big-endian 64-bit encoding of the message bit length. -/
def be64 (n : Nat) : List Nat :=
  [n / 2 ^ 56 % 256, n / 2 ^ 48 % 256, n / 2 ^ 40 % 256, n / 2 ^ 32 % 256,
   n / 2 ^ 24 % 256, n / 2 ^ 16 % 256, n / 2 ^ 8 % 256, n % 256]

/-- SHA-1 padding: append `0x80`, zeros to 56 mod 64, and the 64-bit length. -/
def sha1pad (msg : List Nat) : List Nat :=
  msg ++ 128 :: List.replicate ((119 - msg.length % 64) % 64) 0 ++
    be64 (8 * msg.length)

/-- Combine bytes into big-endian 32-bit words, four at a time. -/
def words4 : List Nat → List Nat
  | a :: b :: c :: d :: rest => (((a * 256 + b) * 256 + c) * 256 + d) :: words4 rest
  | _ => []

/-- The SHA-1 round function for round `i`. -/
def sha1f (i b c d : Nat) : Nat :=
  if i < 20 then (b &&& c) ||| ((b ^^^ 0xffffffff) &&& d)
  else if i < 40 then b ^^^ c ^^^ d
  else if i < 60 then (b &&& c) ||| (b &&& d) ||| (c &&& d)
  else b ^^^ c ^^^ d

/-- The SHA-1 round constant for round `i`. -/
def sha1k (i : Nat) : Nat :=
  if i < 20 then 0x5A827999
  else if i < 40 then 0x6ED9EBA1
  else if i < 60 then 0x8F1BBCDC
  else 0xCA62C1D6

/-- Extend the 16 message words by another `k` schedule words. -/
def extendW : Nat → List Nat → List Nat
  | 0, ws => ws
  | k + 1, ws =>
    extendW k (ws ++ [rotl 1 (ws.getD (ws.length - 3) 0 ^^^
      ws.getD (ws.length - 8) 0 ^^^ ws.getD (ws.length - 14) 0 ^^^
      ws.getD (ws.length - 16) 0)])

/-- The 80 SHA-1 rounds over the schedule words, starting at round `i`. -/
def sha1rounds :
    Nat → List Nat → Nat × Nat × Nat × Nat × Nat → Nat × Nat × Nat × Nat × Nat
  | _, [], s => s
  | i, w :: ws, (a, b, c, d, e) =>
    sha1rounds (i + 1) ws
      ((rotl 5 a + sha1f i b c d + e + sha1k i + w) % 2 ^ 32, a, rotl 30 b, c, d)

/-- One SHA-1 compression of a 64-byte block into the chaining state. -/
def sha1compress (h : Nat × Nat × Nat × Nat × Nat) (block : List Nat) :
    Nat × Nat × Nat × Nat × Nat :=
  let s := sha1rounds 0 (extendW 64 (words4 block)) h
  ((h.1 + s.1) % 2 ^ 32, (h.2.1 + s.2.1) % 2 ^ 32, (h.2.2.1 + s.2.2.1) % 2 ^ 32,
   (h.2.2.2.1 + s.2.2.2.1) % 2 ^ 32, (h.2.2.2.2 + s.2.2.2.2) % 2 ^ 32)

/-- SHA-1 of a byte string (20-byte digest). -/
def sha1 (msg : List Nat) : List Nat :=
  let h := (chunks 63 (sha1pad msg)).foldl sha1compress
    (0x67452301, 0xEFCDAB89, 0x98BADCFE, 0x10325476, 0xC3D2E1F0)
  be32 h.1 ++ be32 h.2.1 ++ be32 h.2.2.1 ++ be32 h.2.2.2.1 ++ be32 h.2.2.2.2

/-- HMAC-SHA1: the keyed PRF `hmac.New(sha1.New, key)` of the source. -/
def hmacSha1 (key : List Nat) (msg : List Nat) : List Nat :=
  let k1 := if 64 < key.length then sha1 key else key
  let k0 := k1 ++ List.replicate (64 - k1.length) 0
  sha1 (k0.map (fun b => b ^^^ 0x5c) ++ sha1 (k0.map (fun b => b ^^^ 0x36) ++ msg))

/-- The buffer pair reached from a fresh state after block initialisation and
`k` rounds of the inner loop. -/
def freshRun (prf : List Nat → List Nat) (hLen : Nat) (salt : List Nat)
    (dkLen k : Nat) : List Nat × List Nat :=
  steps prf hLen k
    (initT prf salt ((dkLen + hLen - 1) / hLen),
     initT prf salt ((dkLen + hLen - 1) / hLen))

/-- Sequential application of `Next` with a list of counts, returning the last
call's key and the final state (for the empty list: the current key and
state). -/
def NextList (prf : List Nat → List Nat) (hLen : Nat) :
    PBKDF2 → List Int → Except PBKDF2 (List Nat × PBKDF2)
  | st, [] => .ok (List.take st.dkLen st.t, st)
  | st, c :: cs => (PBKDF2.Next prf hLen st c).bind (fun p => NextList prf hLen p.2 cs)

instance {ε α : Type} [DecidableEq ε] [DecidableEq α] : DecidableEq (Except ε α) :=
  fun x y =>
    match x, y with
    | .error a, .error b =>
      decidable_of_iff (a = b) ⟨fun h => by rw [h], fun h => by injection h⟩
    | .ok a, .ok b =>
      decidable_of_iff (a = b) ⟨fun h => by rw [h], fun h => by injection h⟩
    | .error _, .ok _ => isFalse (fun h => Except.noConfusion h)
    | .ok _, .error _ => isFalse (fun h => Except.noConfusion h)

/-- The state invariant maintained by the engine (claim C8): the two buffers
always have equal length; the iteration count is zero exactly when the `t`
buffer is empty; and a non-empty `t` buffer has a length that is a multiple of
the digest size and at least the key length. -/
def Inv (hLen : Nat) (st : PBKDF2) : Prop :=
  st.t.length = st.u.length
  ∧ (st.iters = 0 ↔ st.t = [])
  ∧ (st.t ≠ [] → st.t.length % hLen = 0 ∧ st.dkLen ≤ st.t.length)

/-- A state/key pair reachable by a single `Next` of the state's own iteration
count from a fresh state with the same salt and key length (the control loop's
running configuration always satisfies this). -/
def Reach (prf : List Nat → List Nat) (hLen : Nat) (st : PBKDF2)
    (dk : List Nat) : Prop :=
  PBKDF2.Next prf hLen (New st.salt st.dkLen) (Int.ofNat st.iters) = .ok (dk, st)

/-! ### Structural lemmas about blocks and the inner loop -/

theorem chunksF_fuel_irrel (h : Nat) :
    ∀ (f1 : Nat) (l : List Nat) (f2 : Nat), l.length ≤ f1 → l.length ≤ f2 →
      chunksF h f1 l = chunksF h f2 l := by
  intro f1
  induction f1 with
  | zero =>
    intro l f2 h1 _
    have : l = [] := List.eq_nil_of_length_eq_zero (by omega)
    subst this
    cases f2 <;> rfl
  | succ f1 ih =>
    intro l f2 h1 h2
    cases l with
    | nil => cases f2 <;> rfl
    | cons x xs =>
      cases f2 with
      | zero => simp at h2
      | succ f2 =>
        show (x :: xs.take h) :: chunksF h f1 (xs.drop h) =
          (x :: xs.take h) :: chunksF h f2 (xs.drop h)
        have hl : xs.length ≤ f1 := by simpa using h1
        have hl2 : xs.length ≤ f2 := by simpa using h2
        congr 1
        exact ih (xs.drop h) f2 (by simp; omega) (by simp; omega)

theorem chunks_flatten (h : Nat) :
    ∀ bs : List (List Nat), (∀ b ∈ bs, b.length = h + 1) →
      chunks h bs.flatten = bs := by
  intro bs
  induction bs with
  | nil => intro _; rfl
  | cons b bs ih =>
    intro hb
    have hbl : b.length = h + 1 := hb b (by simp)
    obtain ⟨x, xs, rfl⟩ : ∃ x xs, b = x :: xs := by
      cases b with
      | nil => simp at hbl
      | cons x xs => exact ⟨x, xs, rfl⟩
    have hxs : xs.length = h := by simpa using hbl
    have hlen : ((x :: xs) :: bs).flatten.length =
        (h + bs.flatten.length) + 1 := by
      simp [List.length_flatten]
      omega
    rw [chunks, hlen]
    show (x :: (xs ++ bs.flatten).take h) ::
        chunksF h (h + bs.flatten.length) ((xs ++ bs.flatten).drop h) =
      (x :: xs) :: bs
    rw [List.take_append_of_le_length (by omega),
      List.drop_append_of_le_length (by omega),
      List.take_of_length_le (by omega), List.drop_of_length_le (by omega)]
    simp only [List.nil_append]
    rw [chunksF_fuel_irrel h _ _ bs.flatten.length (by omega) le_rfl]
    rw [show chunksF h bs.flatten.length bs.flatten = chunks h bs.flatten from rfl]
    rw [ih (fun b hbmem => hb b (by simp [hbmem]))]

theorem roundU_flatten (prf : List Nat → List Nat) (hLen : Nat)
    (hh : 1 ≤ hLen) (bs : List (List Nat)) (hb : ∀ b ∈ bs, b.length = hLen) :
    roundU prf hLen bs.flatten = (bs.map prf).flatten := by
  have : hLen - 1 + 1 = hLen := by omega
  rw [roundU, blocksOf, chunks_flatten (hLen - 1) bs (by simpa [this] using hb)]

theorem xorBytes_flatten :
    ∀ as bs : List (List Nat), List.Forall₂ (fun a b => a.length = b.length) as bs →
      xorBytes as.flatten bs.flatten = (List.zipWith xorBytes as bs).flatten := by
  intro as bs h
  induction h with
  | nil => simp [xorBytes]
  | cons hab _ ih =>
    simp only [List.flatten_cons, List.zipWith_cons_cons, xorBytes] at *
    rw [List.zipWith_append _ _ _ _ _ hab, ih]

theorem zipWith_map_same {α : Type} (g : List Nat → List Nat → List Nat)
    (f1 f2 : α → List Nat) :
    ∀ l : List α, List.zipWith g (l.map f1) (l.map f2) =
      l.map (fun x => g (f1 x) (f2 x)) := by
  intro l
  induction l with
  | nil => rfl
  | cons x xs ih => simp [ih]

theorem UitB_len (prf : List Nat → List Nat) (hLen : Nat)
    (hp : ∀ x, (prf x).length = hLen) (b : List Nat) (hb : b.length = hLen) :
    ∀ k, (UitB prf b k).length = hLen := by
  intro k
  cases k with
  | zero => exact hb
  | succ k => exact hp _

theorem TaccB_len (prf : List Nat → List Nat) (hLen : Nat)
    (hp : ∀ x, (prf x).length = hLen) (b : List Nat) (hb : b.length = hLen) :
    ∀ k, (TaccB prf b k).length = hLen := by
  intro k
  induction k with
  | zero => exact hb
  | succ k ih =>
    simp only [TaccB, xorBytes, List.length_zipWith, ih,
      UitB_len prf hLen hp b hb]
    omega

theorem steps_flatten (prf : List Nat → List Nat) (hLen : Nat)
    (hh : 1 ≤ hLen) (hp : ∀ x, (prf x).length = hLen)
    (bs : List (List Nat)) (hb : ∀ b ∈ bs, b.length = hLen) :
    ∀ k, steps prf hLen k (bs.flatten, bs.flatten) =
      ((bs.map (fun b => TaccB prf b k)).flatten,
       (bs.map (fun b => UitB prf b k)).flatten) := by
  intro k
  induction k with
  | zero =>
    simp [steps, TaccB, UitB]
  | succ k ih =>
    have hu : ∀ b ∈ bs.map (fun b => UitB prf b k), b.length = hLen := by
      intro b hbm
      obtain ⟨a, ha, rfl⟩ := List.mem_map.mp hbm
      exact UitB_len prf hLen hp a (hb a ha) k
    have hru : roundU prf hLen (bs.map (fun b => UitB prf b k)).flatten =
        (bs.map (fun b => UitB prf b (k + 1))).flatten := by
      rw [roundU_flatten prf hLen hh _ hu, List.map_map]
      rfl
    have hx : xorBytes (bs.map (fun b => TaccB prf b k)).flatten
        (bs.map (fun b => UitB prf b (k + 1))).flatten =
        (bs.map (fun b => TaccB prf b (k + 1))).flatten := by
      rw [xorBytes_flatten]
      · rw [zipWith_map_same]
        rfl
      · rw [List.forall₂_map_right_iff, List.forall₂_map_left_iff]
        refine List.forall₂_same.mpr (fun b hbm => ?_)
        rw [TaccB_len prf hLen hp b (hb b hbm), UitB_len prf hLen hp b (hb b hbm)]
    simp only [steps, ih, step, hru, hx]

theorem steps_add (prf : List Nat → List Nat) (hLen : Nat) (m n : Nat)
    (s : List Nat × List Nat) :
    steps prf hLen (m + n) s = steps prf hLen m (steps prf hLen n s) := by
  induction m with
  | zero => simp [steps]
  | succ m ih =>
    have : m + 1 + n = (m + n) + 1 := by omega
    rw [this]
    simp only [steps, ih]

/-! ### Unfolding equations for `Next` -/

theorem next_eq_of_iters_zero (prf : List Nat → List Nat) (hLen : Nat)
    (st : PBKDF2) (c : Int) (h0 : st.iters = 0) (hc : 1 ≤ c) :
    PBKDF2.Next prf hLen st c =
      .ok (List.take st.dkLen (freshRun prf hLen st.salt st.dkLen (c - 1).toNat).1,
        ⟨st.dkLen, st.salt, (freshRun prf hLen st.salt st.dkLen (c - 1).toNat).1,
          (freshRun prf hLen st.salt st.dkLen (c - 1).toNat).2, 1 + (c - 1).toNat⟩) := by
  have hcle : ¬ c ≤ 0 := by omega
  simp [PBKDF2.Next, hcle, h0, freshRun]

theorem next_eq_of_iters_pos (prf : List Nat → List Nat) (hLen : Nat)
    (st : PBKDF2) (c : Int) (h0 : st.iters ≠ 0) (hc : 1 ≤ c) :
    PBKDF2.Next prf hLen st c =
      .ok (List.take st.dkLen (steps prf hLen c.toNat (st.t, st.u)).1,
        ⟨st.dkLen, st.salt, (steps prf hLen c.toNat (st.t, st.u)).1,
          (steps prf hLen c.toNat (st.t, st.u)).2, st.iters + c.toNat⟩) := by
  have hcle : ¬ c ≤ 0 := by omega
  simp [PBKDF2.Next, hcle, h0]

theorem next_error_iff (prf : List Nat → List Nat) (hLen : Nat)
    (st : PBKDF2) (c : Int) :
    (∃ s, PBKDF2.Next prf hLen st c = .error s) ↔ c ≤ 0 := by
  constructor
  · intro ⟨s, hs⟩
    by_contra hc
    rcases Nat.eq_zero_or_pos st.iters with h0 | h0
    · rw [next_eq_of_iters_zero prf hLen st c h0 (by omega)] at hs
      exact Except.noConfusion hs
    · rw [next_eq_of_iters_pos prf hLen st c (by omega) (by omega)] at hs
      exact Except.noConfusion hs
  · intro hc
    exact ⟨st, by simp [PBKDF2.Next, hc]⟩

theorem next_ok_fields (prf : List Nat → List Nat) (hLen : Nat)
    (st : PBKDF2) (c : Int) (dk : List Nat) (st2 : PBKDF2)
    (h : PBKDF2.Next prf hLen st c = .ok (dk, st2)) :
    1 ≤ c ∧ st2.dkLen = st.dkLen ∧ st2.salt = st.salt ∧
      st2.iters = st.iters + c.toNat ∧ dk = List.take st2.dkLen st2.t := by
  have hc : 1 ≤ c := by
    by_contra hc
    have := (next_error_iff prf hLen st c).mpr (by omega)
    obtain ⟨s, hs⟩ := this
    rw [hs] at h
    exact Except.noConfusion h
  rcases Nat.eq_zero_or_pos st.iters with h0 | h0
  · rw [next_eq_of_iters_zero prf hLen st c h0 hc] at h
    obtain ⟨h1, h2⟩ := Prod.mk.injEq _ _ _ _ ▸ Except.ok.inj h
    subst h2
    refine ⟨hc, rfl, rfl, by simp [h0]; omega, h1.symm⟩
  · rw [next_eq_of_iters_pos prf hLen st c (by omega) hc] at h
    obtain ⟨h1, h2⟩ := Prod.mk.injEq _ _ _ _ ▸ Except.ok.inj h
    subst h2
    exact ⟨hc, rfl, rfl, rfl, h1.symm⟩

/-! ### Bridge between the engine's block view and the RFC 2898 reference -/

theorem UitB_U (prf : List Nat → List Nat) (salt : List Nat) (i : Nat) :
    ∀ j, UitB prf (U prf salt i 0) j = U prf salt i j := by
  intro j
  induction j with
  | zero => rfl
  | succ j ih =>
    show prf (UitB prf (U prf salt i 0) j) = prf (U prf salt i j)
    rw [ih]

theorem TaccB_F (prf : List Nat → List Nat) (salt : List Nat) (i : Nat) :
    ∀ k, TaccB prf (U prf salt i 0) k = F prf salt (k + 1) i := by
  intro k
  induction k with
  | zero => simp [TaccB, F]
  | succ k ih =>
    simp only [TaccB, ih, UitB_U, F, List.range_succ, List.foldl_append,
      List.foldl_cons, List.foldl_nil]

theorem initT_eq_U (prf : List Nat → List Nat) (salt : List Nat) (n : Nat) :
    initT prf salt n = ((List.range n).map (fun k => U prf salt (k + 1) 0)).flatten := by
  simp only [initT, U]

theorem fresh_key_eq_spec (prf : List Nat → List Nat) (hLen : Nat)
    (salt : List Nat) (iter : Int) (dkLen : Nat)
    (hh : 1 ≤ hLen) (hp : ∀ x, (prf x).length = hLen) (hi : 1 ≤ iter) :
    List.take dkLen (freshRun prf hLen salt dkLen (iter - 1).toNat).1 =
      pbkdf2Spec prf hLen salt iter.toNat dkLen := by
  have hblen : ∀ b ∈ (List.range ((dkLen + hLen - 1) / hLen)).map
      (fun k => U prf salt (k + 1) 0), b.length = hLen := by
    intro b hb
    obtain ⟨k, _, rfl⟩ := List.mem_map.mp hb
    simp only [U, hp]
  rw [freshRun, initT_eq_U,
    steps_flatten prf hLen hh hp _ hblen, pbkdf2Spec]
  simp only [List.map_map]
  congr 2
  refine List.map_congr_left (fun k _ => ?_)
  show TaccB prf (U prf salt (k + 1) 0) (iter - 1).toNat = F prf salt iter.toNat (k + 1)
  rw [TaccB_F]
  congr 1
  omega

/-- Claim C1, main content: the one-shot `Key` (`New` followed by one `Next`)
returns exactly the RFC 2898 output for every salt, iteration count `>= 1`,
key length `>= 1` and deterministic fixed-output-size keyed PRF. -/
theorem key_one_shot_matches_rfc2898 (prf : List Nat → List Nat) (hLen : Nat)
    (salt : List Nat) (iter : Int) (dkLen : Nat)
    (hh : 1 ≤ hLen) (hp : ∀ x, (prf x).length = hLen)
    (hi : 1 ≤ iter) (_hd : 1 ≤ dkLen) :
    Key prf hLen salt iter dkLen = .ok (pbkdf2Spec prf hLen salt iter.toNat dkLen) := by
  rw [Key, next_eq_of_iters_zero prf hLen (New salt dkLen) iter rfl hi]
  simp only [Except.map]
  exact congrArg Except.ok
    (fresh_key_eq_spec prf hLen salt iter dkLen hh hp hi)

example : Key prfSum 1 [1] 1 1 = .ok [9] := by decide

example : Key prfSum 1 [1, 2] 3 2 = .ok (pbkdf2Spec prfSum 1 [1, 2] 3 2) := by decide

/-! ### Additivity of `Next` -/

theorem next_next (prf : List Nat → List Nat) (hLen : Nat) (st : PBKDF2)
    (a b : Int) (ha : 1 ≤ a) (hb : 1 ≤ b) :
    (PBKDF2.Next prf hLen st a).bind (fun p => PBKDF2.Next prf hLen p.2 b) =
      PBKDF2.Next prf hLen st (a + b) := by
  rcases Nat.eq_zero_or_pos st.iters with h0 | h0
  · rw [next_eq_of_iters_zero prf hLen st a h0 ha,
      next_eq_of_iters_zero prf hLen st (a + b) h0 (by omega)]
    show PBKDF2.Next prf hLen _ b = _
    rw [next_eq_of_iters_pos prf hLen _ b
      (by show 1 + (a - 1).toNat ≠ 0; omega) hb]
    simp only [freshRun]
    rw [← steps_add]
    have h1 : b.toNat + (a - 1).toNat = (a + b - 1).toNat := by omega
    have h2 : 1 + (a - 1).toNat + b.toNat = 1 + (a + b - 1).toNat := by omega
    rw [h1, h2]
  · rw [next_eq_of_iters_pos prf hLen st a (by omega) ha,
      next_eq_of_iters_pos prf hLen st (a + b) (by omega) (by omega)]
    show PBKDF2.Next prf hLen _ b = _
    rw [next_eq_of_iters_pos prf hLen _ b
      (by show st.iters + a.toNat ≠ 0; omega) hb]
    simp only
    rw [← steps_add]
    have h1 : b.toNat + a.toNat = (a + b).toNat := by omega
    have h2 : st.iters + a.toNat + b.toNat = st.iters + (a + b).toNat := by omega
    rw [h1, h2]

theorem nextList_eq_next_sum (prf : List Nat → List Nat) (hLen : Nat) :
    ∀ (cs : List Int) (st : PBKDF2), cs ≠ [] → (∀ c ∈ cs, 1 ≤ c) →
      NextList prf hLen st cs = PBKDF2.Next prf hLen st cs.sum := by
  intro cs
  induction cs with
  | nil => intro st h; exact absurd rfl h
  | cons c cs ih =>
    intro st _ hpos
    have hc : 1 ≤ c := hpos c (by simp)
    match cs with
    | [] =>
      show (PBKDF2.Next prf hLen st c).bind _ = _
      have hsum : List.sum [c] = c := by simp
      rw [hsum]
      rcases hok : PBKDF2.Next prf hLen st c with s | p
      · rfl
      · obtain ⟨_, hdk, _, _, hkey⟩ := next_ok_fields prf hLen st c p.1 p.2
          (by rw [hok])
        show NextList prf hLen p.2 [] = _
        rw [NextList, ← hkey]
    | c2 :: cs2 =>
      have hne : c2 :: cs2 ≠ [] := by simp
      have hpos2 : ∀ x ∈ c2 :: cs2, 1 ≤ x := fun x hx => hpos x (by simp [hx])
      have hsum2 : 1 ≤ (c2 :: cs2).sum := by
        have : ∀ l : List Int, (∀ x ∈ l, 1 ≤ x) → l.length ≤ l.sum := by
          intro l
          induction l with
          | nil => simp
          | cons y ys ihy =>
            intro hy
            have := ihy (fun x hx => hy x (by simp [hx]))
            have := hy y (by simp)
            simp only [List.length_cons, List.sum_cons]
            omega
        have := this (c2 :: cs2) hpos2
        simp only [List.length_cons] at this
        omega
      show (PBKDF2.Next prf hLen st c).bind
        (fun p => NextList prf hLen p.2 (c2 :: cs2)) = _
      have hrw : (fun p : List Nat × PBKDF2 => NextList prf hLen p.2 (c2 :: cs2)) =
          (fun p : List Nat × PBKDF2 => PBKDF2.Next prf hLen p.2 (c2 :: cs2).sum) := by
        funext p
        exact ih p.2 hne hpos2
      rw [hrw, next_next prf hLen st c (c2 :: cs2).sum hc hsum2]
      simp

/-- Claim C2: resumability.  On a fresh state, `Next(a)` then `Next(b)` agrees
(key and state) with a single `Next(a+b)`, and more generally any nonempty
sequence of positive counts agrees with a single `Next` of their sum. -/
theorem next_additive_split (prf : List Nat → List Nat) (hLen : Nat)
    (salt : List Nat) (dkLen : Nat) (a b : Int) (cs : List Int)
    (ha : 1 ≤ a) (hb : 1 ≤ b) (hcs : cs ≠ []) (hpos : ∀ c ∈ cs, 1 ≤ c) :
    (PBKDF2.Next prf hLen (New salt dkLen) a).bind
        (fun p => PBKDF2.Next prf hLen p.2 b) =
      PBKDF2.Next prf hLen (New salt dkLen) (a + b) ∧
    NextList prf hLen (New salt dkLen) cs =
      PBKDF2.Next prf hLen (New salt dkLen) cs.sum :=
  ⟨next_next prf hLen (New salt dkLen) a b ha hb,
   nextList_eq_next_sum prf hLen cs (New salt dkLen) hcs hpos⟩

/-- Claim C3: first-call semantics of `Next`.  With `iterationCount == 0`,
`Next(c)` builds the blocks `U_1,i = PRF(salt || BigEndian32(i))` for
`i = 1 .. ceil(dkLen / hLen)` into both buffers, performs only `c - 1` rounds
of the inner loop, and raises `iterationCount` by exactly `c`; in particular
`Next(1)` performs zero inner-loop rounds and returns the 1-iteration
RFC 2898 key. -/
theorem next_first_call_semantics (prf : List Nat → List Nat) (hLen : Nat)
    (st : PBKDF2) (c : Int) (h0 : st.iters = 0) (hc : 1 ≤ c) :
    (let t1 := ((List.range ((st.dkLen + hLen - 1) / hLen)).map
        (fun k => U prf st.salt (k + 1) 0)).flatten
     let s := steps prf hLen (c.toNat - 1) (t1, t1)
     PBKDF2.Next prf hLen st c =
       .ok (List.take st.dkLen s.1,
         ⟨st.dkLen, st.salt, s.1, s.2, st.iters + c.toNat⟩))
    ∧ (PBKDF2.Next prf hLen st 1).map Prod.fst =
        .ok (pbkdf2Spec prf hLen st.salt 1 st.dkLen) := by
  constructor
  · rw [next_eq_of_iters_zero prf hLen st c h0 hc]
    simp only [freshRun, initT_eq_U]
    have h1 : (c - 1).toNat = c.toNat - 1 := by omega
    have h2 : 1 + (c.toNat - 1) = st.iters + c.toNat := by omega
    rw [h1, h2]
  · rw [next_eq_of_iters_zero prf hLen st 1 h0 (by omega)]
    simp only [Except.map]
    rfl

theorem key_one_shot_matches_rfc2898_witness :
    ((1 : Nat) ≤ 1 ∧ (∀ x, (prfSum x).length = 1) ∧ (1 : Int) ≤ 3 ∧ (1 : Nat) ≤ 2) ∧
    Key prfSum 1 [1, 2] 3 2 = .ok (pbkdf2Spec prfSum 1 [1, 2] (3 : Int).toNat 2) :=
  ⟨⟨by decide, fun _ => rfl, by decide, by decide⟩,
   key_one_shot_matches_rfc2898 prfSum 1 [1, 2] 3 2 (by decide) (fun _ => rfl)
     (by decide) (by decide)⟩

theorem next_additive_split_witness :
    ((1 : Int) ≤ 2 ∧ (1 : Int) ≤ 3 ∧ ([1, 2] : List Int) ≠ [] ∧
      ∀ c ∈ ([1, 2] : List Int), 1 ≤ c) ∧
    ((PBKDF2.Next prfSum 1 (New [4] 1) 2).bind
        (fun p => PBKDF2.Next prfSum 1 p.2 3) =
      PBKDF2.Next prfSum 1 (New [4] 1) (2 + 3) ∧
    NextList prfSum 1 (New [4] 1) [1, 2] =
      PBKDF2.Next prfSum 1 (New [4] 1) (List.sum [1, 2])) :=
  ⟨⟨by decide, by decide, by decide, by decide⟩,
   next_additive_split prfSum 1 [4] 1 2 3 [1, 2] (by decide) (by decide)
     (by decide) (by decide)⟩

theorem next_first_call_semantics_witness :
    ((New [5] 2).iters = 0 ∧ (1 : Int) ≤ 2) ∧
    ((let t1 := ((List.range (((New [5] 2).dkLen + 1 - 1) / 1)).map
        (fun k => U prfSum (New [5] 2).salt (k + 1) 0)).flatten
      let s := steps prfSum 1 ((2 : Int).toNat - 1) (t1, t1)
      PBKDF2.Next prfSum 1 (New [5] 2) 2 =
        .ok (List.take (New [5] 2).dkLen s.1,
          ⟨(New [5] 2).dkLen, (New [5] 2).salt, s.1, s.2,
            (New [5] 2).iters + (2 : Int).toNat⟩))
    ∧ (PBKDF2.Next prfSum 1 (New [5] 2) 1).map Prod.fst =
        .ok (pbkdf2Spec prfSum 1 (New [5] 2).salt 1 (New [5] 2).dkLen)) :=
  ⟨⟨rfl, by decide⟩, next_first_call_semantics prfSum 1 (New [5] 2) 2 rfl (by decide)⟩

/-- Claim C4 fails as stated: at `d = 2^62` (representable as a 64-bit
duration) the shift `d << 1` overflows, so in the window
`d <= wall < 2*d` the code returns true without consulting the CPU time; and
for a negative duration such as `d = -10`, `wall = -15` the claim's first two
cases contradict each other (`wall < d` and `wall >= 2*d` both hold), so no
function can satisfy them. -/
theorem elapsed_claim_false :
    ¬ claimElapsed (2 ^ 62) (2 ^ 62) 0 ∧ ¬ claimElapsed (-10) (-15) 0 := by
  constructor <;> · unfold claimElapsed; decide

/-- Claim C4 as amended: for every duration `d` that is nonnegative and small
enough that `2*d` is still a 64-bit value (`0 ≤ d < 2^62`), `timer.elapsed`
returns false below `d` of wall time, true from `2*d` of wall time on, and in
between returns true exactly when the CPU-time delta reached `d`. -/
theorem elapsed_three_cases (d wall cpu : Int) (h1 : 0 ≤ d) (h2 : d < 2 ^ 62) :
    claimElapsed d wall cpu := by
  have hshl : shl1 d = 2 * d := by
    rw [shl1, wrap64]
    rw [Int.emod_eq_of_lt (by omega) (by omega)]
    omega
  refine ⟨?_, ?_, ?_⟩
  · intro hw
    have hne : ¬ d ≤ wall := by omega
    simp [elapsedFn, hne]
  · intro hw
    have hle : d ≤ wall := by omega
    have hlt : ¬ wall < shl1 d := by omega
    simp [elapsedFn, hle, hlt]
  · intro hle hlt
    have hlt2 : wall < shl1 d := by omega
    simp [elapsedFn, hle, hlt2]

theorem elapsed_three_cases_witness :
    (0 : Int) ≤ 10 ∧ (10 : Int) < 2 ^ 62 ∧ claimElapsed 10 15 3 :=
  ⟨by decide, by decide, elapsed_three_cases 10 15 3 (by decide) (by decide)⟩

/-- Claim C5: `Next` with a non-positive count and the derivation engine with
precision greater than 10 both fail before any mutation, leaving the state
exactly as given (`.error st` carries the untouched receiver). -/
theorem invalid_argument_atomic (prf : List Nat → List Nat) (hLen : Nat)
    (st : PBKDF2) (c : Int) (p : Nat) (f : List Nat → Option Err)
    (el : Nat → Bool) (fuel : Nat) (hc : c ≤ 0) (hp : 10 < p) :
    PBKDF2.Next prf hLen st c = .error st ∧
    deriveGo prf hLen p f el fuel st = .error st := by
  constructor
  · simp [PBKDF2.Next, hc]
  · simp [deriveGo, hp]

theorem invalid_argument_atomic_witness :
    ((-1 : Int) ≤ 0 ∧ 10 < 11) ∧
    PBKDF2.Next prfSum 1 (New [7] 2) (-1) = .error (New [7] 2) ∧
    deriveGo prfSum 1 11 (fun _ => none) (fun _ => true) 3 (New [7] 2) =
      .error (New [7] 2) :=
  ⟨⟨by decide, by decide⟩,
   invalid_argument_atomic prfSum 1 (New [7] 2) (-1) 11 (fun _ => none)
     (fun _ => true) 3 (by decide) (by decide)⟩

/-- Claim C7: `Reset` updates the key length only when the argument is
positive, replaces the salt only when one is supplied, always clears both
buffers and zeroes the iteration count (the PRF and its password keying are
external to the state and untouched); consequently `Reset(nil, 0)` followed by
`Next(c)` behaves exactly like `Next(c)` on a freshly constructed state with
the same salt, key length and PRF — whatever the prior history in `st`. -/
theorem reset_restores_initial (prf : List Nat → List Nat) (hLen : Nat)
    (st : PBKDF2) (sArg : Option (List Nat)) (kArg : Nat) (c : Int) :
    (st.Reset sArg kArg).t = [] ∧
    (st.Reset sArg kArg).u = [] ∧
    (st.Reset sArg kArg).iters = 0 ∧
    (st.Reset sArg kArg).dkLen = (if 0 < kArg then kArg else st.dkLen) ∧
    (st.Reset sArg kArg).salt = (match sArg with | some s => s | none => st.salt) ∧
    PBKDF2.Next prf hLen (st.Reset none 0) c =
      PBKDF2.Next prf hLen (New st.salt st.dkLen) c :=
  ⟨rfl, rfl, rfl, rfl, rfl, rfl⟩

/-! ### Length bookkeeping for the invariant claim -/

theorem flatten_len_blocks (hLen : Nat) :
    ∀ bs : List (List Nat), (∀ b ∈ bs, b.length = hLen) →
      bs.flatten.length = bs.length * hLen := by
  intro bs
  induction bs with
  | nil => simp
  | cons b bs ih =>
    intro hb
    simp only [List.flatten_cons, List.length_append, List.length_cons,
      hb b (by simp), ih (fun x hx => hb x (by simp [hx]))]
    ring

theorem exists_blocks (hLen : Nat) (_hh : 1 ≤ hLen) :
    ∀ (n : Nat) (l : List Nat), l.length = n * hLen →
      ∃ bs : List (List Nat), l = bs.flatten ∧ ∀ b ∈ bs, b.length = hLen := by
  intro n
  induction n with
  | zero =>
    intro l hl
    refine ⟨[], ?_, by simp⟩
    have : l.length = 0 := by simpa using hl
    simpa using List.eq_nil_of_length_eq_zero this
  | succ n ih =>
    intro l hl
    have hsm : (n + 1) * hLen = n * hLen + hLen := Nat.succ_mul n hLen
    obtain ⟨m, hm⟩ : ∃ m, n * hLen = m := ⟨_, rfl⟩
    have hge : hLen ≤ l.length := by omega
    obtain ⟨bs, hbs, hlen⟩ := ih (l.drop hLen) (by simp [List.length_drop]; omega)
    refine ⟨l.take hLen :: bs, ?_, ?_⟩
    · simp only [List.flatten_cons, ← hbs, List.take_append_drop]
    · intro b hb
      rcases List.mem_cons.mp hb with rfl | hb
      · simp only [List.length_take]
        omega
      · exact hlen b hb

theorem roundU_length (prf : List Nat → List Nat) (hLen : Nat)
    (hh : 1 ≤ hLen) (hp : ∀ x, (prf x).length = hLen) (u : List Nat)
    (hu : u.length % hLen = 0) : (roundU prf hLen u).length = u.length := by
  obtain ⟨bs, hbs, hlen⟩ := exists_blocks hLen hh (u.length / hLen) u
    (Nat.div_mul_cancel (Nat.dvd_of_mod_eq_zero hu)).symm
  subst hbs
  rw [roundU_flatten prf hLen hh bs hlen,
    flatten_len_blocks hLen (bs.map prf)
      (by intro b hb; obtain ⟨a, _, rfl⟩ := List.mem_map.mp hb; exact hp a),
    flatten_len_blocks hLen bs hlen, List.length_map]

theorem steps_len (prf : List Nat → List Nat) (hLen : Nat)
    (hh : 1 ≤ hLen) (hp : ∀ x, (prf x).length = hLen) :
    ∀ (k : Nat) (t u : List Nat), t.length = u.length → u.length % hLen = 0 →
      (steps prf hLen k (t, u)).1.length = t.length ∧
      (steps prf hLen k (t, u)).2.length = u.length := by
  intro k
  induction k with
  | zero => intro t u htu _; exact ⟨rfl, rfl⟩
  | succ k ih =>
    intro t u htu hu
    obtain ⟨ih1, ih2⟩ := ih t u htu hu
    have hr : (roundU prf hLen (steps prf hLen k (t, u)).2).length = u.length := by
      rw [roundU_length prf hLen hh hp _ (by rw [ih2]; exact hu), ih2]
    constructor
    · show (xorBytes (steps prf hLen k (t, u)).1
        (roundU prf hLen (steps prf hLen k (t, u)).2)).length = t.length
      simp only [xorBytes, List.length_zipWith, hr, ih1]
      omega
    · exact hr

theorem initT_length (prf : List Nat → List Nat) (hLen : Nat)
    (hp : ∀ x, (prf x).length = hLen) (salt : List Nat) (n : Nat) :
    (initT prf salt n).length = n * hLen := by
  rw [initT, flatten_len_blocks hLen _
    (by intro b hb; obtain ⟨k, _, rfl⟩ := List.mem_map.mp hb; exact hp _),
    List.length_map, List.length_range]

theorem dkLen_le_ceil_mul (hLen : Nat) (hh : 1 ≤ hLen) (d : Nat) :
    d ≤ ((d + hLen - 1) / hLen) * hLen := by
  have hmod := Nat.mod_lt (d + hLen - 1) (show 0 < hLen by omega)
  have hdm := Nat.div_add_mod (d + hLen - 1) hLen
  obtain ⟨m, hm⟩ : ∃ m, hLen * ((d + hLen - 1) / hLen) = m := ⟨_, rfl⟩
  rw [Nat.mul_comm, hm]
  omega

theorem next_preserves_inv (prf : List Nat → List Nat) (hLen : Nat)
    (hh : 1 ≤ hLen) (hp : ∀ x, (prf x).length = hLen)
    (st : PBKDF2) (c : Int) (dk : List Nat) (st2 : PBKDF2)
    (hd : 1 ≤ st.dkLen) (hinv : Inv hLen st)
    (hok : PBKDF2.Next prf hLen st c = .ok (dk, st2)) :
    Inv hLen st2 ∧ dk = List.take st2.dkLen st2.t := by
  obtain ⟨hc, _, _, _, hkey⟩ := next_ok_fields prf hLen st c dk st2 hok
  refine ⟨?_, hkey⟩
  rcases Nat.eq_zero_or_pos st.iters with h0 | h0
  · rw [next_eq_of_iters_zero prf hLen st c h0 hc] at hok
    obtain ⟨_, h2⟩ := Prod.mk.injEq _ _ _ _ ▸ Except.ok.inj hok
    subst h2
    have hT : (initT prf st.salt ((st.dkLen + hLen - 1) / hLen)).length =
        ((st.dkLen + hLen - 1) / hLen) * hLen :=
      initT_length prf hLen hp st.salt _
    have hmul : (((st.dkLen + hLen - 1) / hLen) * hLen) % hLen = 0 :=
      Nat.mul_mod_left _ _
    obtain ⟨hl1, hl2⟩ := steps_len prf hLen hh hp (c - 1).toNat
      (initT prf st.salt ((st.dkLen + hLen - 1) / hLen))
      (initT prf st.salt ((st.dkLen + hLen - 1) / hLen)) rfl (by rw [hT]; exact hmul)
    have hceil := dkLen_le_ceil_mul hLen hh st.dkLen
    simp only [Inv, freshRun] at hl1 hl2 ⊢
    rw [hl1, hl2, hT]
    refine ⟨rfl, ?_, fun _ => ⟨hmul, hceil⟩⟩
    constructor
    · intro hcontra
      omega
    · intro hnil
      have hz : (steps prf hLen (c - 1).toNat
          (initT prf st.salt ((st.dkLen + hLen - 1) / hLen),
           initT prf st.salt ((st.dkLen + hLen - 1) / hLen))).1.length = 0 := by
        rw [hnil]
        rfl
      rw [hl1, hT] at hz
      obtain ⟨m, hm⟩ : ∃ m, ((st.dkLen + hLen - 1) / hLen) * hLen = m := ⟨_, rfl⟩
      rw [hm] at hz hceil
      omega
  · rw [next_eq_of_iters_pos prf hLen st c (by omega) hc] at hok
    obtain ⟨_, h2⟩ := Prod.mk.injEq _ _ _ _ ▸ Except.ok.inj hok
    subst h2
    obtain ⟨hlen, hiff, hrest⟩ := hinv
    have htne : st.t ≠ [] := by
      intro hnil
      have := hiff.mpr hnil
      omega
    obtain ⟨hmod, hdle⟩ := hrest htne
    have humod : st.u.length % hLen = 0 := by rw [← hlen]; exact hmod
    obtain ⟨hl1, hl2⟩ := steps_len prf hLen hh hp c.toNat st.t st.u hlen humod
    simp only [Inv]
    rw [hl1, hl2]
    refine ⟨hlen, ?_, fun _ => ⟨hmod, hdle⟩⟩
    constructor
    · intro hcontra
      omega
    · intro hnil
      have hz : (steps prf hLen c.toNat (st.t, st.u)).1.length = 0 := by
        rw [hnil]
        rfl
      rw [hl1] at hz
      omega

theorem inv_new (hLen : Nat) (salt : List Nat) (dkLen : Nat) :
    Inv hLen (New salt dkLen) :=
  ⟨rfl, ⟨fun _ => rfl, fun _ => rfl⟩, fun h => absurd rfl h⟩

theorem inv_reset (hLen : Nat) (st : PBKDF2) (sArg : Option (List Nat))
    (kArg : Nat) : Inv hLen (st.Reset sArg kArg) :=
  ⟨rfl, ⟨fun _ => rfl, fun _ => rfl⟩, fun h => absurd rfl h⟩

theorem deriveLoop_preserves_inv (prf : List Nat → List Nat) (hLen p : Nat)
    (f : List Nat → Option Err) (el : Nat → Bool)
    (hh : 1 ≤ hLen) (hp : ∀ x, (prf x).length = hLen) :
    ∀ (fuel : Nat) (st : PBKDF2) (dk : List Nat) (k : Nat) (o : DeriveOut),
      1 ≤ st.dkLen → Inv hLen st → dk = List.take st.dkLen st.t →
      deriveLoop prf hLen p f el fuel st dk k = .ok o →
      Inv hLen o.st ∧ o.dk = List.take o.st.dkLen o.st.t := by
  intro fuel
  induction fuel with
  | zero =>
    intro st dk k o hd hinv hdk hok
    rcases hf : f dk with _ | e <;>
      simp only [deriveLoop, hf] at hok <;>
      obtain rfl := Except.ok.inj hok <;>
      exact ⟨hinv, hdk⟩
  | succ fuel ih =>
    intro st dk k o hd hinv hdk hok
    rcases hf : f dk with _ | e
    · simp only [deriveLoop, hf] at hok
      rcases hel : el k with _ | _
      · rw [if_neg (by simp [hel])] at hok
        rcases hnext : PBKDF2.Next prf hLen st (Int.ofNat (st.iters >>> p))
          with s | ⟨dk2, st2⟩
        · simp only [hnext] at hok
          exact Except.noConfusion hok
        · simp only [hnext] at hok
          rcases hloop : deriveLoop prf hLen p f el fuel st2 dk2 (k + 1)
            with s | o2
          · simp only [hloop, Except.map] at hok
            exact Except.noConfusion hok
          · simp only [hloop, Except.map] at hok
            obtain rfl := Except.ok.inj hok
            obtain ⟨_, hdk2, _, _, _⟩ :=
              next_ok_fields prf hLen st _ dk2 st2 hnext
            obtain ⟨hinv2, hkey2⟩ := next_preserves_inv prf hLen hh hp st _
              dk2 st2 hd hinv hnext
            have := ih st2 dk2 (k + 1) o2 (by omega) hinv2
              (by rw [hkey2, hdk2]) hloop
            exact this
      · rw [if_pos (by simp [hel])] at hok
        obtain rfl := Except.ok.inj hok
        exact ⟨hinv, hdk⟩
    · simp only [deriveLoop, hf] at hok
      obtain rfl := Except.ok.inj hok
      exact ⟨hinv, hdk⟩

theorem deriveGo_preserves_inv (prf : List Nat → List Nat) (hLen p : Nat)
    (f : List Nat → Option Err) (el : Nat → Bool) (fuel : Nat)
    (st : PBKDF2) (o : DeriveOut)
    (hh : 1 ≤ hLen) (hp : ∀ x, (prf x).length = hLen) (hd : 1 ≤ st.dkLen)
    (hok : deriveGo prf hLen p f el fuel st = .ok o) :
    Inv hLen o.st ∧ o.dk = List.take o.st.dkLen o.st.t := by
  by_cases hp10 : 10 < p
  · simp [deriveGo, hp10] at hok
  · simp only [deriveGo, if_neg hp10] at hok
    rcases hnext : PBKDF2.Next prf hLen (st.Reset none 0) 1024 with s | ⟨dk0, st0⟩
    · rw [hnext] at hok
      exact Except.noConfusion hok
    · rw [hnext] at hok
      obtain ⟨_, hdk0, _, _, _⟩ :=
        next_ok_fields prf hLen (st.Reset none 0) 1024 dk0 st0 hnext
      obtain ⟨hinv0, hkey0⟩ := next_preserves_inv prf hLen hh hp
        (st.Reset none 0) 1024 dk0 st0 hd (inv_reset hLen st none 0) hnext
      exact deriveLoop_preserves_inv prf hLen p f el hh hp fuel st0 dk0 0 o
        (by rw [hdk0]; exact hd) hinv0 (by rw [hkey0, hdk0]) hok

theorem search_preserves_inv (prf : List Nat → List Nat) (hLen : Nat)
    (f : List Nat → Option Err) (el : Nat → Bool) (fuel : Nat)
    (st : PBKDF2) (okey : Option (List Nat)) (oerr : Option Err) (ost : PBKDF2)
    (hh : 1 ≤ hLen) (hp : ∀ x, (prf x).length = hLen) (hd : 1 ≤ st.dkLen)
    (hok : Search prf hLen f el fuel st = .ok (okey, oerr, ost)) :
    Inv hLen ost ∧ ∀ kk, okey = some kk → kk = List.take ost.dkLen ost.t := by
  simp only [Search] at hok
  rcases hgo : deriveGo prf hLen precision f el fuel st with s | o
  · rw [hgo] at hok
    exact Except.noConfusion hok
  · rw [hgo] at hok
    obtain ⟨hinv, hkey⟩ := deriveGo_preserves_inv prf hLen precision f el fuel
      st o hh hp hd hgo
    rcases herr : o.err with _ | e
    · simp only [herr] at hok
      obtain h := Except.ok.inj hok
      obtain ⟨h1, h23⟩ := Prod.mk.injEq _ _ _ _ ▸ h
      obtain ⟨h2, h3⟩ := Prod.mk.injEq _ _ _ _ ▸ h23
      refine ⟨h3 ▸ hinv, fun kk hkk => ?_⟩
      rw [← h1] at hkk
      exact Option.noConfusion hkk
    · rcases e with _ | _ | code
      · simp only [herr] at hok
        obtain h := Except.ok.inj hok
        obtain ⟨h1, h23⟩ := Prod.mk.injEq _ _ _ _ ▸ h
        obtain ⟨h2, h3⟩ := Prod.mk.injEq _ _ _ _ ▸ h23
        refine ⟨h3 ▸ hinv, fun kk hkk => ?_⟩
        rw [← h1] at hkk
        obtain rfl := Option.some.inj hkk
        rw [← h3]
        exact hkey
      · simp only [herr] at hok
        obtain h := Except.ok.inj hok
        obtain ⟨h1, h23⟩ := Prod.mk.injEq _ _ _ _ ▸ h
        obtain ⟨h2, h3⟩ := Prod.mk.injEq _ _ _ _ ▸ h23
        refine ⟨h3 ▸ hinv, fun kk hkk => ?_⟩
        rw [← h1] at hkk
        exact Option.noConfusion hkk
      · simp only [herr] at hok
        obtain h := Except.ok.inj hok
        obtain ⟨h1, h23⟩ := Prod.mk.injEq _ _ _ _ ▸ h
        obtain ⟨h2, h3⟩ := Prod.mk.injEq _ _ _ _ ▸ h23
        refine ⟨h3 ▸ hinv, fun kk hkk => ?_⟩
        rw [← h1] at hkk
        exact Option.noConfusion hkk

/-- Claim C8: the state invariants hold at construction and after `Reset`, are
preserved by every successful `Next` and by the derivation engine behind
`Derive` and `Search` (for key length >= 1 and a fixed-output-size PRF), and
every returned key is the first `keyLength` bytes of the final `t` buffer (as
a value — the embedding is pure, so returned keys can never alias internal
state).  The final conjunct restates `Inv` in the claim's own terms: equal
buffer lengths when both are non-empty, length a multiple of the digest size
and at least the key length, and a zero iteration count exactly when the
buffers are empty. -/
theorem state_invariants (prf : List Nat → List Nat) (hLen : Nat)
    (hh : 1 ≤ hLen) (hp : ∀ x, (prf x).length = hLen)
    (salt0 : List Nat) (dkLen0 : Nat) (st st3 : PBKDF2) (c : Int)
    (dk : List Nat) (st2 : PBKDF2) (sArg : Option (List Nat)) (kArg : Nat)
    (p fuel : Nat) (f : List Nat → Option Err) (el : Nat → Bool)
    (o : DeriveOut) (okey : Option (List Nat)) (oerr : Option Err)
    (ost : PBKDF2) (kk : List Nat) :
    Inv hLen (New salt0 dkLen0)
    ∧ Inv hLen (st.Reset sArg kArg)
    ∧ (1 ≤ st.dkLen → Inv hLen st → PBKDF2.Next prf hLen st c = .ok (dk, st2) →
        Inv hLen st2 ∧ dk = List.take st2.dkLen st2.t)
    ∧ (1 ≤ st.dkLen → deriveGo prf hLen p f el fuel st = .ok o →
        Inv hLen o.st ∧ o.dk = List.take o.st.dkLen o.st.t)
    ∧ (1 ≤ st.dkLen → Search prf hLen f el fuel st = .ok (okey, oerr, ost) →
        Inv hLen ost ∧ (okey = some kk → kk = List.take ost.dkLen ost.t))
    ∧ (Inv hLen st3 →
        ((st3.t ≠ [] ∧ st3.u ≠ []) → st3.t.length = st3.u.length)
        ∧ (st3.t ≠ [] → st3.t.length % hLen = 0 ∧ st3.dkLen ≤ st3.t.length)
        ∧ (st3.iters = 0 ↔ (st3.t = [] ∧ st3.u = []))) := by
  refine ⟨inv_new hLen salt0 dkLen0, inv_reset hLen st sArg kArg, ?_, ?_, ?_, ?_⟩
  · intro hd hinv hok
    exact next_preserves_inv prf hLen hh hp st c dk st2 hd hinv hok
  · intro hd hok
    exact deriveGo_preserves_inv prf hLen p f el fuel st o hh hp hd hok
  · intro hd hok
    obtain ⟨hinv, hkk⟩ :=
      search_preserves_inv prf hLen f el fuel st okey oerr ost hh hp hd hok
    exact ⟨hinv, hkk kk⟩
  · intro ⟨hlen, hiff, hrest⟩
    refine ⟨fun _ => hlen, hrest, ?_, ?_⟩
    · intro h0
      have ht := hiff.mp h0
      refine ⟨ht, ?_⟩
      have : st3.u.length = 0 := by rw [← hlen, ht]; rfl
      exact List.eq_nil_of_length_eq_zero this
    · intro ⟨ht, _⟩
      exact hiff.mpr ht

set_option maxRecDepth 100000 in
theorem state_invariants_witness :
    ((1 : Nat) ≤ 1 ∧ (∀ x, (prfZero x).length = 1)) ∧
    (Inv 1 (New [2] 1)
      ∧ Inv 1 (PBKDF2.Reset ⟨1, [2], [0], [0], 5⟩ none 0)
      ∧ (1 ≤ (⟨1, [2], [0], [0], 5⟩ : PBKDF2).dkLen →
          Inv 1 (⟨1, [2], [0], [0], 5⟩ : PBKDF2) →
          PBKDF2.Next prfZero 1 ⟨1, [2], [0], [0], 5⟩ 1 =
            .ok ([0], ⟨1, [2], [0], [0], 6⟩) →
          Inv 1 (⟨1, [2], [0], [0], 6⟩ : PBKDF2) ∧
            [0] = List.take (⟨1, [2], [0], [0], 6⟩ : PBKDF2).dkLen
              (⟨1, [2], [0], [0], 6⟩ : PBKDF2).t)
      ∧ (1 ≤ (⟨1, [2], [0], [0], 5⟩ : PBKDF2).dkLen →
          deriveGo prfZero 1 4 (fun _ => none) (fun _ => true) 0
              ⟨1, [2], [0], [0], 5⟩ =
            .ok ⟨[0], none, ⟨1, [2], [0], [0], 1024⟩, [(1024, [0])]⟩ →
          Inv 1 (⟨[0], none, ⟨1, [2], [0], [0], 1024⟩,
              [(1024, [0])]⟩ : DeriveOut).st ∧
            (⟨[0], none, ⟨1, [2], [0], [0], 1024⟩, [(1024, [0])]⟩ : DeriveOut).dk =
              List.take (⟨[0], none, ⟨1, [2], [0], [0], 1024⟩,
                  [(1024, [0])]⟩ : DeriveOut).st.dkLen
                (⟨[0], none, ⟨1, [2], [0], [0], 1024⟩,
                  [(1024, [0])]⟩ : DeriveOut).st.t)
      ∧ (1 ≤ (⟨1, [2], [0], [0], 5⟩ : PBKDF2).dkLen →
          Search prfZero 1 (fun _ => none) (fun _ => true) 0
              ⟨1, [2], [0], [0], 5⟩ =
            .ok (none, some .errTimeout, ⟨1, [2], [0], [0], 1024⟩) →
          Inv 1 (⟨1, [2], [0], [0], 1024⟩ : PBKDF2) ∧
            ((none : Option (List Nat)) = some [0] →
              [0] = List.take (⟨1, [2], [0], [0], 1024⟩ : PBKDF2).dkLen
                (⟨1, [2], [0], [0], 1024⟩ : PBKDF2).t))
      ∧ (Inv 1 (⟨1, [2], [0], [0], 5⟩ : PBKDF2) →
          (((⟨1, [2], [0], [0], 5⟩ : PBKDF2).t ≠ [] ∧
              (⟨1, [2], [0], [0], 5⟩ : PBKDF2).u ≠ []) →
            (⟨1, [2], [0], [0], 5⟩ : PBKDF2).t.length =
              (⟨1, [2], [0], [0], 5⟩ : PBKDF2).u.length)
          ∧ ((⟨1, [2], [0], [0], 5⟩ : PBKDF2).t ≠ [] →
              (⟨1, [2], [0], [0], 5⟩ : PBKDF2).t.length % 1 = 0 ∧
              (⟨1, [2], [0], [0], 5⟩ : PBKDF2).dkLen ≤
                (⟨1, [2], [0], [0], 5⟩ : PBKDF2).t.length)
          ∧ ((⟨1, [2], [0], [0], 5⟩ : PBKDF2).iters = 0 ↔
              ((⟨1, [2], [0], [0], 5⟩ : PBKDF2).t = [] ∧
                (⟨1, [2], [0], [0], 5⟩ : PBKDF2).u = [])))) ∧
    (Inv 1 (⟨1, [2], [0], [0], 5⟩ : PBKDF2)
      ∧ PBKDF2.Next prfZero 1 ⟨1, [2], [0], [0], 5⟩ 1 =
          .ok ([0], ⟨1, [2], [0], [0], 6⟩)
      ∧ deriveGo prfZero 1 4 (fun _ => none) (fun _ => true) 0
          ⟨1, [2], [0], [0], 5⟩ =
          .ok ⟨[0], none, ⟨1, [2], [0], [0], 1024⟩, [(1024, [0])]⟩
      ∧ Search prfZero 1 (fun _ => none) (fun _ => true) 0
          ⟨1, [2], [0], [0], 5⟩ =
          .ok (none, some .errTimeout, ⟨1, [2], [0], [0], 1024⟩)) :=
  ⟨⟨by decide, fun _ => rfl⟩,
   state_invariants prfZero 1 (by decide) (fun _ => rfl) [2] 1
     ⟨1, [2], [0], [0], 5⟩ ⟨1, [2], [0], [0], 5⟩ 1 [0] ⟨1, [2], [0], [0], 6⟩
     none 0 4 0 (fun _ => none) (fun _ => true)
     ⟨[0], none, ⟨1, [2], [0], [0], 1024⟩, [(1024, [0])]⟩ none
     (some .errTimeout) ⟨1, [2], [0], [0], 1024⟩ [0],
   ⟨by unfold Inv; decide, by decide, by decide, by decide⟩⟩

/-! ### Outcome analysis of the control loop -/

theorem deriveLoop_err (prf : List Nat → List Nat) (hLen p : Nat)
    (f : List Nat → Option Err) (el : Nat → Bool) :
    ∀ (fuel : Nat) (st : PBKDF2) (dk : List Nat) (k : Nat) (o : DeriveOut),
      deriveLoop prf hLen p f el fuel st dk k = .ok o →
      (∀ e, o.err = some e → f o.dk = some e) ∧
      (o.err = none → f o.dk = none) := by
  intro fuel
  induction fuel with
  | zero =>
    intro st dk k o hok
    rcases hf : f dk with _ | e <;> simp only [deriveLoop, hf] at hok <;>
      obtain rfl := Except.ok.inj hok
    · exact ⟨fun e he => Option.noConfusion he, fun _ => hf⟩
    · exact ⟨fun e2 he => by obtain rfl := Option.some.inj he; exact hf,
        fun hno => Option.noConfusion hno⟩
  | succ fuel ih =>
    intro st dk k o hok
    rcases hf : f dk with _ | e
    · simp only [deriveLoop, hf] at hok
      rcases hel : el k with _ | _
      · rw [if_neg (by simp [hel])] at hok
        rcases hnext : PBKDF2.Next prf hLen st (Int.ofNat (st.iters >>> p))
          with s | ⟨dk2, st2⟩
        · simp only [hnext] at hok
          exact Except.noConfusion hok
        · simp only [hnext] at hok
          rcases hloop : deriveLoop prf hLen p f el fuel st2 dk2 (k + 1)
            with s | o2
          · simp only [hloop, Except.map] at hok
            exact Except.noConfusion hok
          · simp only [hloop, Except.map] at hok
            obtain rfl := Except.ok.inj hok
            exact ih st2 dk2 (k + 1) o2 hloop
      · rw [if_pos (by simp [hel])] at hok
        obtain rfl := Except.ok.inj hok
        exact ⟨fun e he => Option.noConfusion he, fun _ => hf⟩
    · simp only [deriveLoop, hf] at hok
      obtain rfl := Except.ok.inj hok
      exact ⟨fun e2 he => by obtain rfl := Option.some.inj he; exact hf,
        fun hno => Option.noConfusion hno⟩

theorem deriveGo_ok_loop (prf : List Nat → List Nat) (hLen p : Nat)
    (f : List Nat → Option Err) (el : Nat → Bool) (fuel : Nat)
    (st : PBKDF2) (o : DeriveOut) (hp10 : ¬ 10 < p)
    (hok : deriveGo prf hLen p f el fuel st = .ok o) :
    ∃ dk0 st0, PBKDF2.Next prf hLen (st.Reset none 0) 1024 = .ok (dk0, st0) ∧
      deriveLoop prf hLen p f el fuel st0 dk0 0 = .ok o := by
  simp only [deriveGo, if_neg hp10] at hok
  rcases hnext : PBKDF2.Next prf hLen (st.Reset none 0) 1024 with s | ⟨dk0, st0⟩
  · simp only [hnext] at hok
    exact Except.noConfusion hok
  · simp only [hnext] at hok
    exact ⟨dk0, st0, rfl, hok⟩

/-! ### The predicate-invocation trace and its schedule -/

theorem sched_shift (p i : Nat) :
    ∀ k, sched p (i + (i >>> p)) k = sched p i (k + 1) := by
  intro k
  induction k with
  | zero => rfl
  | succ k ih =>
    show sched p (i + (i >>> p)) k + (sched p (i + (i >>> p)) k >>> p) = _
    rw [ih]
    rfl

theorem sched_le (p i0 : Nat) : ∀ k, i0 ≤ sched p i0 k := by
  intro k
  induction k with
  | zero => exact le_rfl
  | succ k ih =>
    show i0 ≤ sched p i0 k + (sched p i0 k >>> p)
    exact le_trans ih (Nat.le_add_right _ _)

theorem sched_lt_succ (p i0 : Nat) (hmin : 2 ^ p ≤ i0) (k : Nat) :
    sched p i0 k < sched p i0 (k + 1) := by
  have h1 : 1 ≤ sched p i0 k >>> p := by
    rw [Nat.shiftRight_eq_div_pow]
    exact (Nat.one_le_div_iff (Nat.two_pow_pos p)).mpr
      (le_trans hmin (sched_le p i0 k))
  show sched p i0 k < sched p i0 k + (sched p i0 k >>> p)
  exact Nat.lt_add_of_pos_right h1

theorem sched_eq_specSeq (p : Nat) : ∀ k, sched p 1024 k = specSeq p k := by
  intro k
  induction k with
  | zero => rfl
  | succ k ih =>
    show sched p 1024 k + (sched p 1024 k >>> p) = specSeq p k + specSeq p k / 2 ^ p
    rw [ih, Nat.shiftRight_eq_div_pow]

theorem getLast?_cons_of_ne_nil {α : Type} (x : α) (l : List α) (h : l ≠ []) :
    (x :: l).getLast? = l.getLast? := by
  cases l with
  | nil => exact absurd rfl h
  | cons y t => exact List.getLast?_cons_cons

/-- Master lemma for the control loop: starting from a configuration reached
by a single `Next` from fresh (iteration count at least `2^p` and at least the
initial batch), the trace of predicate invocations is nonempty, visits exactly
the schedule `sched p i0` in order, hands each invocation the key of a fresh
derivation at exactly that count, and ends at the final state's count/key. -/
theorem deriveLoop_trace (prf : List Nat → List Nat) (hLen p : Nat)
    (f : List Nat → Option Err) (el : Nat → Bool) :
    ∀ (fuel : Nat) (st : PBKDF2) (dk : List Nat) (k : Nat) (o : DeriveOut),
      2 ^ p ≤ st.iters →
      Reach prf hLen st dk →
      deriveLoop prf hLen p f el fuel st dk k = .ok o →
      o.trace ≠ []
      ∧ o.trace.map Prod.fst =
          (List.range o.trace.length).map (sched p st.iters)
      ∧ (∀ e ∈ o.trace, ∃ s2, PBKDF2.Next prf hLen (New st.salt st.dkLen)
          (Int.ofNat e.1) = .ok (e.2, s2))
      ∧ o.st.iters = sched p st.iters (o.trace.length - 1)
      ∧ o.trace.getLast? = some (o.st.iters, o.dk)
      ∧ o.st.salt = st.salt ∧ o.st.dkLen = st.dkLen := by
  intro fuel
  induction fuel with
  | zero =>
    intro st dk k o hmin hreach hok
    rcases hf : f dk with _ | e <;> simp only [deriveLoop, hf] at hok <;>
      obtain rfl := Except.ok.inj hok <;>
      refine ⟨by simp, by simp [List.range_succ, sched], ?_, rfl, rfl, rfl, rfl⟩ <;>
      · intro e2 he2
        rw [List.mem_singleton] at he2
        subst he2
        exact ⟨st, hreach⟩
  | succ fuel ih =>
    intro st dk k o hmin hreach hok
    rcases hf : f dk with _ | e
    · simp only [deriveLoop, hf] at hok
      rcases hel : el k with _ | _
      · rw [if_neg (by simp [hel])] at hok
        rcases hnext : PBKDF2.Next prf hLen st (Int.ofNat (st.iters >>> p))
          with s | ⟨dk2, st2⟩
        · simp only [hnext] at hok
          exact Except.noConfusion hok
        · simp only [hnext] at hok
          rcases hloop : deriveLoop prf hLen p f el fuel st2 dk2 (k + 1)
            with s | o2
          · simp only [hloop, Except.map] at hok
            exact Except.noConfusion hok
          · simp only [hloop, Except.map] at hok
            obtain rfl := Except.ok.inj hok
            obtain ⟨_, hdk2, hsalt2, hiters2, _⟩ :=
              next_ok_fields prf hLen st _ dk2 st2 hnext
            have hiters2n : st2.iters = st.iters + (st.iters >>> p) := by
              rw [hiters2]
              rfl
            have hmin2 : 2 ^ p ≤ st2.iters := by
              rw [hiters2n]
              exact le_trans hmin (Nat.le_add_right _ _)
            have hreach2 : Reach prf hLen st2 dk2 := by
              show PBKDF2.Next prf hLen (New st2.salt st2.dkLen)
                (Int.ofNat st2.iters) = .ok (dk2, st2)
              have hofadd : Int.ofNat (st.iters + (st.iters >>> p)) =
                  Int.ofNat st.iters + Int.ofNat (st.iters >>> p) := rfl
              rw [hsalt2, hdk2, hiters2n, hofadd]
              rw [← next_next prf hLen (New st.salt st.dkLen)
                (Int.ofNat st.iters) (Int.ofNat (st.iters >>> p))
                (Int.ofNat_le.mpr (le_trans (Nat.two_pow_pos p) hmin))
                (Int.ofNat_le.mpr ((Nat.one_le_div_iff (Nat.two_pow_pos p)).mpr
                  hmin |>.trans_eq (Nat.shiftRight_eq_div_pow _ _).symm))]
              rw [hreach]
              exact hnext
            obtain ⟨hne2, hmap2, hkeys2, hiters3, hlast2, hsaltf, hdkf⟩ :=
              ih st2 dk2 (k + 1) o2 hmin2 hreach2 hloop
            have hlen1 : 1 ≤ o2.trace.length := by
              cases h : o2.trace with
              | nil => exact absurd h hne2
              | cons a l => simp [h]
            refine ⟨by simp, ?_, ?_, ?_, ?_, ?_, ?_⟩
            · show (st.iters, dk).1 :: o2.trace.map Prod.fst =
                (List.range (o2.trace.length + 1)).map (sched p st.iters)
              rw [hmap2, List.range_succ_eq_map, List.map_cons, List.map_map]
              show st.iters :: _ = sched p st.iters 0 :: _
              congr 1
              refine List.map_congr_left (fun m _ => ?_)
              show sched p st2.iters m = sched p st.iters (m + 1)
              rw [hiters2n]
              exact sched_shift p st.iters m
            · intro e2 he2
              rcases List.mem_cons.mp he2 with rfl | he2
              · exact ⟨st, hreach⟩
              · obtain ⟨s2, hs2⟩ := hkeys2 e2 he2
                rw [hsalt2, hdk2] at hs2
                exact ⟨s2, hs2⟩
            · show o2.st.iters = sched p st.iters ((o2.trace.length + 1) - 1)
              rw [hiters3, hiters2n]
              have : (o2.trace.length + 1) - 1 = (o2.trace.length - 1) + 1 := by
                omega
              rw [this, ← sched_shift p st.iters]
            · show ((st.iters, dk) :: o2.trace).getLast? = some (o2.st.iters, o2.dk)
              rw [getLast?_cons_of_ne_nil _ _ hne2]
              exact hlast2
            · rw [hsaltf, hsalt2]
            · rw [hdkf, hdk2]
      · rw [if_pos (by simp [hel])] at hok
        obtain rfl := Except.ok.inj hok
        refine ⟨by simp, by simp [List.range_succ, sched], ?_, rfl, rfl, rfl, rfl⟩
        intro e2 he2
        rw [List.mem_singleton] at he2
        subst he2
        exact ⟨st, hreach⟩
    · simp only [deriveLoop, hf] at hok
      obtain rfl := Except.ok.inj hok
      refine ⟨by simp, by simp [List.range_succ, sched], ?_, rfl, rfl, rfl, rfl⟩
      intro e2 he2
      rw [List.mem_singleton] at he2
      subst he2
      exact ⟨st, hreach⟩

/-- The trace properties of a full engine run: the schedule starts at the
initial batch of 1024 iterations. -/
theorem deriveGo_trace (prf : List Nat → List Nat) (hLen p : Nat)
    (f : List Nat → Option Err) (el : Nat → Bool) (fuel : Nat)
    (st : PBKDF2) (o : DeriveOut) (hp10 : p ≤ 10)
    (hok : deriveGo prf hLen p f el fuel st = .ok o) :
    o.trace ≠ []
    ∧ o.trace.map Prod.fst = (List.range o.trace.length).map (sched p 1024)
    ∧ (∀ e ∈ o.trace, ∃ s2, PBKDF2.Next prf hLen (New st.salt st.dkLen)
        (Int.ofNat e.1) = .ok (e.2, s2))
    ∧ o.st.iters = sched p 1024 (o.trace.length - 1)
    ∧ o.trace.getLast? = some (o.st.iters, o.dk) := by
  obtain ⟨dk0, st0, hnext, hloop⟩ :=
    deriveGo_ok_loop prf hLen p f el fuel st o (by omega) hok
  obtain ⟨_, hdk0, hsalt0, hiters0, _⟩ :=
    next_ok_fields prf hLen (st.Reset none 0) 1024 dk0 st0 hnext
  have hiters0n : st0.iters = 1024 := by
    rw [hiters0]
    rfl
  have hmin : 2 ^ p ≤ st0.iters := by
    rw [hiters0n]
    calc (2 : Nat) ^ p ≤ 2 ^ 10 := Nat.pow_le_pow_right (by omega) hp10
      _ = 1024 := by norm_num
  have hreach : Reach prf hLen st0 dk0 := by
    show PBKDF2.Next prf hLen (New st0.salt st0.dkLen)
      (Int.ofNat st0.iters) = .ok (dk0, st0)
    rw [hiters0n, hsalt0, hdk0]
    exact hnext
  obtain ⟨h1, h2, h3, h4, h5, _, _⟩ :=
    deriveLoop_trace prf hLen p f el fuel st0 dk0 0 o hmin hreach hloop
  rw [hiters0n] at h2 h4
  rw [hsalt0, hdk0] at h3
  exact ⟨h1, h2, h3, h4, h5⟩

theorem two_pow_le_1024 (p : Nat) (hp10 : p ≤ 10) : 2 ^ p ≤ 1024 := by
  calc (2 : Nat) ^ p ≤ 2 ^ 10 := Nat.pow_le_pow_right (by omega) hp10
    _ = 1024 := by norm_num

theorem chain_lt_map_sched (p i0 : Nat) (hmin : 2 ^ p ≤ i0) (n : Nat) :
    List.Chain' (fun a b => a < b) ((List.range n).map (sched p i0)) := by
  rw [List.chain'_map]
  cases n with
  | zero => simp
  | succ n =>
    rw [List.chain'_range_succ]
    intro m _
    exact sched_lt_succ p i0 hmin m

/-- Claim C9: during one engine run (the core of both `Derive` and `Search`),
the predicate is invoked at strictly increasing iteration counts starting at
1024 (the initial batch), each invocation receiving exactly the key a fresh
derivation would produce at that count, and it is invoked at least once no
matter what the elapsed-check oracle returns (in particular when a
non-positive duration makes every elapsed check fire immediately). -/
theorem predicate_invocation_order (prf : List Nat → List Nat) (hLen p : Nat)
    (f : List Nat → Option Err) (el : Nat → Bool) (fuel : Nat)
    (st : PBKDF2) (o : DeriveOut) (hp10 : p ≤ 10)
    (hok : deriveGo prf hLen p f el fuel st = .ok o) :
    o.trace ≠ []
    ∧ (o.trace.map Prod.fst).head? = some 1024
    ∧ List.Chain' (fun a b => a < b) (o.trace.map Prod.fst)
    ∧ (∀ e ∈ o.trace, ∃ s2,
        PBKDF2.Next prf hLen (New st.salt st.dkLen) (Int.ofNat e.1) =
          .ok (e.2, s2)) := by
  obtain ⟨h1, h2, h3, _, _⟩ := deriveGo_trace prf hLen p f el fuel st o hp10 hok
  refine ⟨h1, ?_, ?_, h3⟩
  · rw [h2]
    rcases hlen : o.trace.length with _ | m
    · exact absurd (List.length_eq_zero.mp hlen) h1
    · simp [List.range_succ_eq_map, sched]
  · rw [h2]
    exact chain_lt_map_sched p 1024 (two_pow_le_1024 p hp10) o.trace.length

set_option maxRecDepth 100000 in
theorem predicate_invocation_order_witness :
    ((4 : Nat) ≤ 10 ∧
      deriveGo prfZero 1 4 (fun _ => none) (fun _ => true) 0 (New [3] 1) =
        .ok ⟨[0], none, ⟨1, [3], [0], [0], 1024⟩, [(1024, [0])]⟩) ∧
    ((⟨[0], none, ⟨1, [3], [0], [0], 1024⟩,
        [(1024, [0])]⟩ : DeriveOut).trace ≠ []
    ∧ ((⟨[0], none, ⟨1, [3], [0], [0], 1024⟩,
        [(1024, [0])]⟩ : DeriveOut).trace.map Prod.fst).head? = some 1024
    ∧ List.Chain' (fun a b => a < b)
        ((⟨[0], none, ⟨1, [3], [0], [0], 1024⟩,
          [(1024, [0])]⟩ : DeriveOut).trace.map Prod.fst)
    ∧ (∀ e ∈ (⟨[0], none, ⟨1, [3], [0], [0], 1024⟩,
          [(1024, [0])]⟩ : DeriveOut).trace, ∃ s2,
        PBKDF2.Next prfZero 1 (New (New [3] 1).salt (New [3] 1).dkLen)
          (Int.ofNat e.1) = .ok (e.2, s2))) :=
  ⟨⟨by decide, by decide⟩,
   predicate_invocation_order prfZero 1 4 (fun _ => none) (fun _ => true) 0
     (New [3] 1) ⟨[0], none, ⟨1, [3], [0], [0], 1024⟩, [(1024, [0])]⟩
     (by decide) (by decide)⟩

/-- Claim C10: the schedule of iteration counts at which the control loop
invokes the predicate is the fixed sequence `i_0 = 1024`,
`i_{k+1} = i_k + floor(i_k / 2^p)`: whatever the duration (elapsed-check
oracle), fuel, and predicate, the trace's counts are exactly a prefix of
`specSeq p`, the final state's `Iters()` is the last scheduled count reached,
and the last predicate invocation saw exactly that count and the final key —
so two runs with the same precision test keys at identical counts and a
`Search` that finds a `Derive`-produced key stops at exactly its count. -/
theorem batch_schedule_deterministic (prf : List Nat → List Nat) (hLen p : Nat)
    (f : List Nat → Option Err) (el : Nat → Bool) (fuel : Nat)
    (st : PBKDF2) (o : DeriveOut) (hp10 : p ≤ 10)
    (hok : deriveGo prf hLen p f el fuel st = .ok o) :
    o.trace.map Prod.fst = (List.range o.trace.length).map (specSeq p)
    ∧ o.st.Iters = specSeq p (o.trace.length - 1)
    ∧ o.trace.getLast? = some (o.st.Iters, o.dk) := by
  obtain ⟨_, h2, _, h4, h5⟩ := deriveGo_trace prf hLen p f el fuel st o hp10 hok
  refine ⟨?_, ?_, ?_⟩
  · rw [h2]
    exact List.map_congr_left (fun m _ => sched_eq_specSeq p m)
  · rw [PBKDF2.Iters, h4, sched_eq_specSeq]
  · rw [PBKDF2.Iters]
    exact h5

set_option maxRecDepth 100000 in
theorem batch_schedule_deterministic_witness :
    ((10 : Nat) ≤ 10 ∧
      deriveGo prfZero 1 10 (fun _ => none) (fun _ => false) 1 (New [6] 1) =
        .ok ⟨[0], none, ⟨1, [6], [0], [0], 1025⟩, [(1024, [0]), (1025, [0])]⟩) ∧
    ((⟨[0], none, ⟨1, [6], [0], [0], 1025⟩,
        [(1024, [0]), (1025, [0])]⟩ : DeriveOut).trace.map Prod.fst =
      (List.range (⟨[0], none, ⟨1, [6], [0], [0], 1025⟩,
        [(1024, [0]), (1025, [0])]⟩ : DeriveOut).trace.length).map (specSeq 10)
    ∧ (⟨[0], none, ⟨1, [6], [0], [0], 1025⟩,
        [(1024, [0]), (1025, [0])]⟩ : DeriveOut).st.Iters =
      specSeq 10 ((⟨[0], none, ⟨1, [6], [0], [0], 1025⟩,
        [(1024, [0]), (1025, [0])]⟩ : DeriveOut).trace.length - 1)
    ∧ (⟨[0], none, ⟨1, [6], [0], [0], 1025⟩,
        [(1024, [0]), (1025, [0])]⟩ : DeriveOut).trace.getLast? =
      some ((⟨[0], none, ⟨1, [6], [0], [0], 1025⟩,
        [(1024, [0]), (1025, [0])]⟩ : DeriveOut).st.Iters,
        (⟨[0], none, ⟨1, [6], [0], [0], 1025⟩,
          [(1024, [0]), (1025, [0])]⟩ : DeriveOut).dk)) :=
  ⟨⟨by decide, by decide⟩,
   batch_schedule_deterministic prfZero 1 10 (fun _ => none) (fun _ => false) 1
     (New [6] 1)
     ⟨[0], none, ⟨1, [6], [0], [0], 1025⟩, [(1024, [0]), (1025, [0])]⟩
     (by decide) (by decide)⟩

/-- Claim C6: outcome mapping of `Search`.  Given the underlying engine run,
`Search` returns the key with no error exactly when the predicate returned the
`KeyFound` sentinel; a run that stopped with no predicate signal (time budget
exhausted, predicate always empty — including at the stopping point) maps to
no key and `ErrTimeout`; and any other predicate signal is passed through
unchanged with no key.  The last conjunct shows every non-empty signal indeed
came from the predicate on the final key. -/
theorem search_outcomes (prf : List Nat → List Nat) (hLen : Nat)
    (f : List Nat → Option Err) (el : Nat → Bool) (fuel : Nat)
    (st : PBKDF2) (o : DeriveOut)
    (hgo : deriveGo prf hLen precision f el fuel st = .ok o) :
    (Search prf hLen f el fuel st = .ok (some o.dk, none, o.st) ↔
      o.err = some .keyFound)
    ∧ (o.err = none →
        Search prf hLen f el fuel st = .ok (none, some .errTimeout, o.st) ∧
        f o.dk = none)
    ∧ (∀ e, o.err = some e → e ≠ .keyFound →
        Search prf hLen f el fuel st = .ok (none, some e, o.st))
    ∧ (∀ e, o.err = some e → f o.dk = some e) := by
  obtain ⟨dk0, st0, hnext, hloop⟩ :=
    deriveGo_ok_loop prf hLen precision f el fuel st o (by decide) hgo
  obtain ⟨herr1, herr2⟩ := deriveLoop_err prf hLen precision f el fuel st0 dk0 0 o hloop
  have hS : Search prf hLen f el fuel st =
      (match o.err with
        | some Err.keyFound => Except.ok (some o.dk, none, o.st)
        | some e => .ok (none, some e, o.st)
        | none => .ok (none, some Err.errTimeout, o.st)) := by
    simp only [Search, hgo]
  refine ⟨?_, ?_, ?_, herr1⟩
  · constructor
    · intro hs
      rcases he : o.err with _ | e
      · simp only [he] at hS
        rw [hS] at hs
        obtain h := Except.ok.inj hs
        obtain ⟨h1, _⟩ := Prod.mk.injEq _ _ _ _ ▸ h
        exact absurd h1 (by simp)
      · rcases e with _ | _ | code
        · rfl
        · simp only [he] at hS
          rw [hS] at hs
          obtain h := Except.ok.inj hs
          obtain ⟨h1, _⟩ := Prod.mk.injEq _ _ _ _ ▸ h
          exact absurd h1 (by simp)
        · simp only [he] at hS
          rw [hS] at hs
          obtain h := Except.ok.inj hs
          obtain ⟨h1, _⟩ := Prod.mk.injEq _ _ _ _ ▸ h
          exact absurd h1 (by simp)
    · intro he
      simp only [he] at hS
      exact hS
  · intro he
    simp only [he] at hS
    exact ⟨hS, herr2 he⟩
  · intro e he hne
    rcases e with _ | _ | code
    · exact absurd rfl hne
    · simp only [he] at hS
      exact hS
    · simp only [he] at hS
      exact hS

set_option maxRecDepth 100000 in
theorem search_outcomes_witness :
    deriveGo prfZero 1 precision (fun _ => some .keyFound) (fun _ => false) 0
        (New [3] 1) =
      .ok ⟨[0], some .keyFound, ⟨1, [3], [0], [0], 1024⟩, [(1024, [0])]⟩ ∧
    ((Search prfZero 1 (fun _ => some .keyFound) (fun _ => false) 0 (New [3] 1) =
        .ok (some (⟨[0], some .keyFound, ⟨1, [3], [0], [0], 1024⟩,
            [(1024, [0])]⟩ : DeriveOut).dk, none,
          (⟨[0], some .keyFound, ⟨1, [3], [0], [0], 1024⟩,
            [(1024, [0])]⟩ : DeriveOut).st) ↔
      (⟨[0], some .keyFound, ⟨1, [3], [0], [0], 1024⟩,
        [(1024, [0])]⟩ : DeriveOut).err = some .keyFound)
    ∧ ((⟨[0], some .keyFound, ⟨1, [3], [0], [0], 1024⟩,
          [(1024, [0])]⟩ : DeriveOut).err = none →
        Search prfZero 1 (fun _ => some .keyFound) (fun _ => false) 0 (New [3] 1) =
          .ok (none, some .errTimeout,
            (⟨[0], some .keyFound, ⟨1, [3], [0], [0], 1024⟩,
              [(1024, [0])]⟩ : DeriveOut).st) ∧
        (fun _ => some Err.keyFound) (⟨[0], some .keyFound,
          ⟨1, [3], [0], [0], 1024⟩, [(1024, [0])]⟩ : DeriveOut).dk = none)
    ∧ (∀ e, (⟨[0], some .keyFound, ⟨1, [3], [0], [0], 1024⟩,
          [(1024, [0])]⟩ : DeriveOut).err = some e → e ≠ .keyFound →
        Search prfZero 1 (fun _ => some .keyFound) (fun _ => false) 0 (New [3] 1) =
          .ok (none, some e,
            (⟨[0], some .keyFound, ⟨1, [3], [0], [0], 1024⟩,
              [(1024, [0])]⟩ : DeriveOut).st))
    ∧ (∀ e, (⟨[0], some .keyFound, ⟨1, [3], [0], [0], 1024⟩,
          [(1024, [0])]⟩ : DeriveOut).err = some e →
        (fun _ => some Err.keyFound) (⟨[0], some .keyFound,
          ⟨1, [3], [0], [0], 1024⟩, [(1024, [0])]⟩ : DeriveOut).dk = some e)) :=
  ⟨by decide,
   search_outcomes prfZero 1 (fun _ => some .keyFound) (fun _ => false) 0
     (New [3] 1)
     ⟨[0], some .keyFound, ⟨1, [3], [0], [0], 1024⟩, [(1024, [0])]⟩
     (by decide)⟩

/-! ### Concrete conformance checks with the real PRF (HMAC-SHA1)

Published vectors: SHA-1 from FIPS 180 / RFC 3174, HMAC-SHA1 from RFC 2202,
and the PBKDF2-HMAC-SHA1 vectors of RFC 6070 (the ones the repository's own
test suite uses), both for the engine (`Key`, `NextList`) and for the
spec-side reference `pbkdf2Spec`. -/

theorem sha1_digest_length (msg : List Nat) : (sha1 msg).length = 20 := rfl

theorem hmacSha1_digest_length (key msg : List Nat) :
    (hmacSha1 key msg).length = 20 := rfl

set_option maxRecDepth 100000 in
theorem sha1_abc :
    sha1 [0x61, 0x62, 0x63] =
      [0xa9, 0x99, 0x3e, 0x36, 0x47, 0x06, 0x81, 0x6a, 0xba, 0x3e,
       0x25, 0x71, 0x78, 0x50, 0xc2, 0x6c, 0x9c, 0xd0, 0xd8, 0x9d] := by
  decide

set_option maxRecDepth 100000 in
theorem hmac_sha1_rfc2202_case2 :
    hmacSha1 [0x4a, 0x65, 0x66, 0x65]
      [0x77, 0x68, 0x61, 0x74, 0x20, 0x64, 0x6f, 0x20, 0x79, 0x61, 0x20,
       0x77, 0x61, 0x6e, 0x74, 0x20, 0x66, 0x6f, 0x72, 0x20, 0x6e, 0x6f,
       0x74, 0x68, 0x69, 0x6e, 0x67, 0x3f] =
      [0xef, 0xfc, 0xdf, 0x6a, 0xe5, 0xeb, 0x2f, 0xa2, 0xd2, 0x74,
       0x16, 0xd5, 0xf1, 0x84, 0xdf, 0x9c, 0x25, 0x9a, 0x7c, 0x79] := by
  decide

set_option maxRecDepth 100000 in
theorem rfc6070_vector1 :
    Key (hmacSha1 [0x70, 0x61, 0x73, 0x73, 0x77, 0x6f, 0x72, 0x64]) 20
      [0x73, 0x61, 0x6c, 0x74] 1 20 =
      .ok [0x0c, 0x60, 0xc8, 0x0f, 0x96, 0x1f, 0x0e, 0x71, 0xf3, 0xa9,
           0xb5, 0x24, 0xaf, 0x60, 0x12, 0x06, 0x2f, 0xe0, 0x37, 0xa6] := by
  decide

set_option maxRecDepth 100000 in
theorem rfc6070_vector2 :
    Key (hmacSha1 [0x70, 0x61, 0x73, 0x73, 0x77, 0x6f, 0x72, 0x64]) 20
      [0x73, 0x61, 0x6c, 0x74] 2 20 =
      .ok [0xea, 0x6c, 0x01, 0x4d, 0xc7, 0x2d, 0x6f, 0x8c, 0xcd, 0x1e,
           0xd9, 0x2a, 0xce, 0x1d, 0x41, 0xf0, 0xd8, 0xde, 0x89, 0x57] := by
  decide

set_option maxRecDepth 100000 in
theorem rfc6070_vector2_incremental :
    (NextList (hmacSha1 [0x70, 0x61, 0x73, 0x73, 0x77, 0x6f, 0x72, 0x64]) 20
        (New [0x73, 0x61, 0x6c, 0x74] 20) [1, 1]).map Prod.fst =
      .ok [0xea, 0x6c, 0x01, 0x4d, 0xc7, 0x2d, 0x6f, 0x8c, 0xcd, 0x1e,
           0xd9, 0x2a, 0xce, 0x1d, 0x41, 0xf0, 0xd8, 0xde, 0x89, 0x57] := by
  decide

set_option maxRecDepth 100000 in
theorem rfc6070_vector1_reference :
    pbkdf2Spec (hmacSha1 [0x70, 0x61, 0x73, 0x73, 0x77, 0x6f, 0x72, 0x64]) 20
      [0x73, 0x61, 0x6c, 0x74] 1 20 =
      [0x0c, 0x60, 0xc8, 0x0f, 0x96, 0x1f, 0x0e, 0x71, 0xf3, 0xa9,
       0xb5, 0x24, 0xaf, 0x60, 0x12, 0x06, 0x2f, 0xe0, 0x37, 0xa6] := by
  decide

set_option maxRecDepth 100000 in
theorem rfc6070_vector2_reference :
    pbkdf2Spec (hmacSha1 [0x70, 0x61, 0x73, 0x73, 0x77, 0x6f, 0x72, 0x64]) 20
      [0x73, 0x61, 0x6c, 0x74] 2 20 =
      [0xea, 0x6c, 0x01, 0x4d, 0xc7, 0x2d, 0x6f, 0x8c, 0xcd, 0x1e,
       0xd9, 0x2a, 0xce, 0x1d, 0x41, 0xf0, 0xd8, 0xde, 0x89, 0x57] := by
  decide

end Pbkdf2
